import Mathlib

/-!
Shallow embedding of the HAT-trie implementation (src/hat-trie.c, src/slab.c)
for checking the natural-language specification against the code.

Modelling conventions:
* `value_t` (C: `unsigned long`) is modelled by `Nat`; values are only stored
  and copied, never subjected to arithmetic.
* A byte is `Fin 256` (the C code always indexes children through
  `(unsigned char)` casts).
* Keys handed to the C functions are a pointer plus a length.  The code can
  read bytes beyond the advertised length (`hattrie_consume` with `brk = 0`
  does), so a key is modelled as an infinite byte stream `Nat → Fin 256`
  together with the length, exactly mirroring a C pointer into memory.
* Heap objects (trie nodes, buckets) carry an allocation `tag : Nat` that
  models the C pointer identity: distinct live objects have distinct tags,
  and pointer-equality tests in the source (`src.b != right.b`,
  `xs[j].t == xs[j+1].t`) are modelled as tag comparisons.  A fresh-tag
  counter `next` in the container models the allocator.
* A hybrid bucket is referenced by every parent slot in its `[c0, c1]` range
  (a contiguous run of identical pointers in the C child array).  The model
  stores one copy of the bucket per slot; a mutation of the bucket writes all
  slots of its declared range, which coincides with the C in-place mutation
  whenever the range invariant (spec section 3.6, invariant 2) holds.
* `ahtable.c` is not part of the sources provided under src/; the bucket
  (array hash table) is modelled from the specification, section 4.2, as an
  association list in deterministic enumeration order.  Each such definition
  is marked `Modelled from the spec:`.
-/

/-- C `value_t` (`unsigned long` in common.h): values are opaque words. -/
abbrev value_t := Nat

/-- A key byte, as produced by the `(unsigned char)` casts in hat-trie.c. -/
abbrev byte_t := Fin 256

/-- Modelled from the spec: the record list of an array hash table
(`ahtable_t`, whose source is not under src/): length-prefixed keys with
their values, in the table's deterministic enumeration order. -/
abbrev ah_entries := List (List byte_t × value_t)

/-- The bucket discriminator bits `NODE_TYPE_PURE_BUCKET` /
`NODE_TYPE_HYBRID_BUCKET` of hat-trie.c. -/
inductive bflag where
  | pure : bflag
  | hybrid : bflag
deriving DecidableEq, Repr

/-- C `node_ptr`: a node is either a trie node (`trie_node_t`: flag with
optional `NODE_HAS_VAL`, value, 256 child slots) or a bucket (`ahtable_t`
header: flag, covered range `c0..c1`, records).  `tag` models the address of
the heap object. -/
inductive node_ptr where
  | trie (hasVal : Bool) (val : value_t) (tag : Nat) (xs : Nat → node_ptr)
  | bkt (flag : bflag) (c0 c1 : Nat) (tag : Nat) (entries : ah_entries)

/-- C `hattrie_t`: root node, stored-key count `m`; `next` is the fresh-tag
counter modelling the allocator (slab cache and malloc). -/
structure hattrie_t where
  root : node_ptr
  m : Nat
  next : Nat

/-- Child slot access `p->t->xs[c]` (junk self-reference on a bucket, which
the code never does on the paths modelled here). -/
def node_ptr.child : node_ptr → Nat → node_ptr
  | node_ptr.trie _ _ _ xs, c => xs c
  | n, _ => n

/-- Flag test `*node.flag & NODE_TYPE_TRIE`. -/
def node_ptr.isTrie : node_ptr → Bool
  | node_ptr.trie _ _ _ _ => true
  | _ => false

/-- Flag test `*node.flag & NODE_TYPE_PURE_BUCKET`. -/
def node_ptr.isPure : node_ptr → Bool
  | node_ptr.bkt bflag.pure _ _ _ _ => true
  | _ => false

/-- Flag test `*node.flag & NODE_TYPE_HYBRID_BUCKET`. -/
def node_ptr.isHybrid : node_ptr → Bool
  | node_ptr.bkt bflag.hybrid _ _ _ _ => true
  | _ => false

/-- The allocation tag (address) of a node. -/
def node_ptr.tag : node_ptr → Nat
  | node_ptr.trie _ _ t _ => t
  | node_ptr.bkt _ _ _ t _ => t

/-- Record list of a bucket (empty on a trie node: never read there). -/
def node_ptr.entries : node_ptr → ah_entries
  | node_ptr.bkt _ _ _ _ es => es
  | _ => []

/-- Bucket range start `b->c0` (0 on a trie node: never read there). -/
def node_ptr.bc0 : node_ptr → Nat
  | node_ptr.bkt _ c0 _ _ _ => c0
  | _ => 0

/-- Bucket range end `b->c1` (0 on a trie node: never read there). -/
def node_ptr.bc1 : node_ptr → Nat
  | node_ptr.bkt _ _ c1 _ _ => c1
  | _ => 0

/-- Modelled from the spec: `ahtable_size` / the `m` field of `ahtable_t`
(number of live records). -/
def ahtable_size (es : ah_entries) : Nat := es.length

/-- Modelled from the spec: `ahtable_tryget` — non-inserting lookup,
returning the value of the record whose key equals `k`. -/
def ahtable_tryget (es : ah_entries) (k : List byte_t) : Option value_t :=
  (es.find? (fun e => e.1 = k)).map (fun e => e.2)

/-- Modelled from the spec: `ahtable_get` — return the value slot for `k`,
inserting a zero-initialised record if absent.  The result is the updated
record list. -/
def ahtable_get_entries (es : ah_entries) (k : List byte_t) : ah_entries :=
  if (es.find? (fun e => e.1 = k)).isSome then es else es ++ [(k, 0)]

/-- Modelled from the spec: `ahtable_insert` — upsert of `(k, v)`. -/
def ahtable_insert (es : ah_entries) (k : List byte_t) (v : value_t) : ah_entries :=
  if (es.find? (fun e => e.1 = k)).isSome then
    es.map (fun e => if e.1 = k then (k, v) else e)
  else es ++ [(k, v)]

/-- Modelled from the spec: `ahtable_del` — remove the record with key `k`. -/
def ahtable_del (es : ah_entries) (k : List byte_t) : ah_entries :=
  es.filter (fun e => ¬ e.1 = k)

/-- Result of `hattrie_consume`: the final parent (`*p`), the number of
`++*k` advances performed (`off`), the final residual length (`*l`) and the
returned child node. -/
structure consume_res where
  parent : node_ptr
  off : Nat
  l : Nat
  node : node_ptr

/-- Loop of `hattrie_consume`: `while (*node.flag & NODE_TYPE_TRIE && *l > brk)
{ ++*k; --*l; *p = node; node = node.t->xs[(unsigned char) **k]; }`.
`k` is the original stream; after `off` advances the current char `**k`
is `k off`. -/
def consume_go (k : Nat → byte_t) (brk : Nat) :
    Nat → node_ptr → Nat → node_ptr → consume_res
  | 0, p, off, node => ⟨p, off, 0, node⟩
  | l + 1, p, off, node =>
    if node.isTrie = true ∧ brk < l + 1 then
      consume_go k brk l node (off + 1) (node.child (k (off + 1) : Fin 256).val)
    else
      ⟨p, off, l + 1, node⟩

/-- C `hattrie_consume`: iterate trie nodes until the string is consumed or a
bucket is found.  Initially `node = p->t->xs[(unsigned char) **k]`. -/
def hattrie_consume (p : node_ptr) (k : Nat → byte_t) (l : Nat) (brk : Nat) :
    consume_res :=
  consume_go k brk l p 0 (p.child (k 0 : Fin 256).val)

/-- Burst threshold `TRIE_BUCKET_SIZE` (common.h default; the constant is an
overridable compile-time tunable, so the operations below take it as the
parameter `cfg`). -/
def TRIE_BUCKET_SIZE : Nat := 16384

/-- Alphabet bound `TRIE_MAXCHAR` (common.h default 0xff). -/
def TRIE_MAXCHAR : Nat := 255

/-- A `value_t*` returned by the container: either the `val` field of the
trie node reached by `path` from the root (`&n.t->val`), or the value slot of
the record with key `key` in the bucket reached by `path`. -/
inductive href where
  | trieVal (path : List byte_t)
  | bucketVal (path : List byte_t) (key : List byte_t)
deriving DecidableEq, Repr

/-- Node reached from `n` by following child slots along `path`. -/
def nodeAt : node_ptr → List byte_t → Option node_ptr
  | n, [] => some n
  | node_ptr.trie _ _ _ xs, c :: p => nodeAt (xs c.val) p
  | _, _ :: _ => none

/-- Replace the subtree at `path` by `f` applied to it (identity on an
invalid path).  Used for trie-node mutations, which are never aliased. -/
def updateAt : node_ptr → List byte_t → (node_ptr → node_ptr) → node_ptr
  | n, [], f => f n
  | node_ptr.trie hv v tg xs, c :: p, f =>
      node_ptr.trie hv v tg
        (fun c2 => if c2 = c.val then updateAt (xs c.val) p f else xs c2)
  | n, _ :: _, _ => n

/-- Mutate the bucket at `path` (last byte = the slot it was reached by).
The C code mutates one shared heap object; here every parent slot in the
bucket's declared `[c0, c1]` range receives the updated bucket, which agrees
with the in-place mutation under the range invariant. -/
def updateBucketAt : node_ptr → List byte_t → (node_ptr → node_ptr) → node_ptr
  | n, [], _ => n
  | node_ptr.trie hv v tg xs, [c], f =>
      (match xs c.val with
       | node_ptr.bkt fl c0 c1 tg2 es =>
           node_ptr.trie hv v tg (fun c2 =>
             if c0 ≤ c2 ∧ c2 ≤ c1 then f (node_ptr.bkt fl c0 c1 tg2 es) else xs c2)
       | _ => node_ptr.trie hv v tg xs)
  | node_ptr.trie hv v tg xs, c :: p, f =>
      node_ptr.trie hv v tg
        (fun c2 => if c2 = c.val then updateBucketAt (xs c.val) p f else xs c2)
  | n, _, _ => n

/-- Dereference a returned `value_t*`. -/
def readRef (T : hattrie_t) : href → Option value_t
  | href.trieVal path =>
      match nodeAt T.root path with
      | some (node_ptr.trie _ v _ _) => some v
      | _ => none
  | href.bucketVal path key =>
      match nodeAt T.root path with
      | some (node_ptr.bkt _ _ _ _ es) => ahtable_tryget es key
      | _ => none

/-- Store `v` through a returned `value_t*` (`*ptr = v`). -/
def writeRef (T : hattrie_t) : href → value_t → hattrie_t
  | href.trieVal path, v =>
      { T with root := updateAt T.root path (fun n =>
          match n with
          | node_ptr.trie hv _ tg xs => node_ptr.trie hv v tg xs
          | n => n) }
  | href.bucketVal path key, v =>
      { T with root := updateBucketAt T.root path (fun n =>
          match n with
          | node_ptr.bkt fl c0 c1 tg es =>
              node_ptr.bkt fl c0 c1 tg
                (es.map (fun e => if e.1 = key then (key, v) else e))
          | n => n) }

/-- C `hattrie_create`: a root trie node whose 256 slots all point to one
fresh empty hybrid bucket covering `[0x00, TRIE_MAXCHAR]`. -/
def hattrie_create : hattrie_t :=
  { root := node_ptr.trie false 0 1 (fun _ => node_ptr.bkt bflag.hybrid 0 255 0 []),
    m := 0, next := 2 }

/-- Result of `hattrie_find`: node found, its path, and the key position
(`off` advances consumed, `l` residual length) after find's adjustments. -/
structure find_res where
  path : List byte_t
  node : node_ptr
  off : Nat
  l : Nat

/-- C `hattrie_find`: find node in trie (`node.flag == NULL` is `none`).
With `len == 0` it returns the root immediately; otherwise it descends with
`brk = 1`; landing on a trie node yields it only if it has `NODE_HAS_VAL`;
landing on a pure bucket skips the current char (`++*key; --*len`). -/
def hattrie_find (T : hattrie_t) (k : Nat → byte_t) (len : Nat) : Option find_res :=
  if len = 0 then some ⟨[], T.root, 0, 0⟩
  else
    let r := hattrie_consume T.root k len 1
    let path := (List.range (r.off + 1)).map k
    match r.node with
    | node_ptr.trie hv v tg xs =>
        if hv then some ⟨path, node_ptr.trie hv v tg xs, r.off, r.l⟩ else none
    | node_ptr.bkt bflag.pure c0 c1 tg es =>
        some ⟨path, node_ptr.bkt bflag.pure c0 c1 tg es, r.off + 1, r.l - 1⟩
    | node_ptr.bkt bflag.hybrid c0 c1 tg es =>
        some ⟨path, node_ptr.bkt bflag.hybrid c0 c1 tg es, r.off, r.l⟩

/-- C `hattrie_tryget`: find the node for the key; on a trie node return
`&node.t->val`; on a bucket delegate to `ahtable_tryget`. -/
def hattrie_tryget (T : hattrie_t) (k : Nat → byte_t) (len : Nat) : Option href :=
  match hattrie_find T k len with
  | none => none
  | some fr =>
    match fr.node with
    | node_ptr.trie _ _ _ _ => some (href.trieVal fr.path)
    | node_ptr.bkt _ _ _ _ es =>
        let suffix := (List.range fr.l).map (fun i => k (i + fr.off))
        match ahtable_tryget es suffix with
        | some _ => some (href.bucketVal fr.path suffix)
        | none => none

/-- C `hattrie_useval` on the trie node at `path`: set `NODE_HAS_VAL`
(incrementing `m` on the transition) and return `&n.t->val`. -/
def hattrie_useval (T : hattrie_t) (path : List byte_t) : hattrie_t × href :=
  let already :=
    match nodeAt T.root path with
    | some (node_ptr.trie hv _ _ _) => hv
    | _ => true
  ({ T with
      root := updateAt T.root path (fun n =>
        match n with
        | node_ptr.trie _ v tg xs => node_ptr.trie true v tg xs
        | n => n),
      m := if already then T.m else T.m + 1 },
   href.trieVal path)

/-- C `hattrie_clrval` on the trie node at `path`: clear `NODE_HAS_VAL` and
zero `val` (decrementing `m`), returning 0; `-1` if it was already clear. -/
def hattrie_clrval (T : hattrie_t) (path : List byte_t) : hattrie_t × Int :=
  match nodeAt T.root path with
  | some (node_ptr.trie true _ _ _) =>
      ({ T with
          root := updateAt T.root path (fun n =>
            match n with
            | node_ptr.trie _ _ tg xs => node_ptr.trie false 0 tg xs
            | n => n),
          m := T.m - 1 }, 0)
  | _ => (T, -1)

/-- Leading-character occurrence count `cs[c]` of `hattrie_split_mid`
(the code asserts every key in the iterated bucket is nonempty). -/
def split_cs (es : ah_entries) (c : Nat) : Nat :=
  (es.filter (fun e => (e.1.headD 0).val = c)).length

/-- Split-point loop of `hattrie_split_mid`:
`while (j + 1 < c1) { d = abs(...); if (d <= abs(left - right) && left + cs[j+1] < all) {...} else break; }`.
The C computes the differences on `unsigned int` and casts to `int`; with
counts below 2^31 (guaranteed: buckets hold well under 2^31 records) that
equals the integer arithmetic used here. -/
def split_mid_go (es : ah_entries) (c1 all_m : Nat) :
    Nat → Nat → Nat → Nat → Nat × Nat × Nat
  | 0, j, left, right => (j, left, right)
  | n + 1, j, left, right =>
    if j + 1 < c1 then
      let c := split_cs es (j + 1)
      let d : Int := ((left : Int) + c) - ((right : Int) - c)
      if d.natAbs ≤ ((left : Int) - (right : Int)).natAbs ∧ left + c < all_m then
        split_mid_go es c1 all_m n (j + 1) (left + c) (right - c)
      else (j, left, right)
    else (j, left, right)

/-- C `hattrie_split_mid`: choose the split point of a (hybrid) bucket,
returning `(j, left_m, right_m)`.  The structural counter `c1 - j` bounds
the loop (`j` strictly increases towards `c1`); it reaches 0 only when
`j + 1 < c1` has already failed, so the result is the loop's exit state. -/
def hattrie_split_mid (node : node_ptr) : Nat × Nat × Nat :=
  let es := node.entries
  let all_m := ahtable_size es
  let j := node.bc0
  let left := split_cs es j
  split_mid_go es node.bc1 all_m (node.bc1 - j) j left (all_m - left)

/-- Net effect of `hattrie_split_fill` on the records: processes the source
records in order and returns `(kept-in-src, inserted-left, inserted-right)`.
`srcIsLeft` / `srcIsRight` are the pointer comparisons `src.b == left.b` /
`src.b == right.b` of the C code; an insert into a pure target strips the
leading byte (`key + 1, len - 1`). -/
def fill_go (split : Nat) (srcIsLeft srcIsRight leftPure rightPure : Bool) :
    ah_entries → ah_entries × ah_entries × ah_entries
  | [] => ([], [], [])
  | (key, u) :: rest =>
    let r := fill_go split srcIsLeft srcIsRight leftPure rightPure rest
    if split < (key.headD 0).val then
      if srcIsRight then ((key, u) :: r.1, r.2.1, r.2.2)
      else
        ((if srcIsLeft then r.1 else (key, u) :: r.1),
         r.2.1,
         (if rightPure then (key.tail, u) else (key, u)) :: r.2.2)
    else
      if srcIsLeft then ((key, u) :: r.1, r.2.1, r.2.2)
      else
        ((if srcIsRight then r.1 else (key, u) :: r.1),
         (if leftPure then (key.tail, u) else (key, u)) :: r.2.1,
         r.2.2)

/-- C `hattrie_split_h`: split a hybrid bucket under `parent` into a left
node for `[c0, j]` and a right node for `[j+1, c1]`, reusing the original
table for whichever side stays hybrid (fresh tables draw tags from `next`).
Returns the updated parent and the new tag counter. -/
def hattrie_split_h (next : Nat) (parent : node_ptr) (node : node_ptr) :
    node_ptr × Nat :=
  match parent, node with
  | node_ptr.trie hv v tg xs, node_ptr.bkt _ c0 c1 btg es =>
    let j := (hattrie_split_mid (node_ptr.bkt bflag.hybrid c0 c1 btg es)).1
    -- table allocation / reuse (hybrid -> pure always needs a new table)
    let rightTag := if j + 1 = c1 then next else btg
    let leftTag :=
      if j + 1 = c1 then (if j = c0 then next + 1 else btg) else next
    let next2 :=
      if j + 1 = c1 then (if j = c0 then next + 2 else next + 1) else next + 1
    let leftPure := c0 = j
    let rightPure := j + 1 = c1
    let srcIsLeft := btg = leftTag
    let srcIsRight := btg = rightTag
    let fr := fill_go j srcIsLeft srcIsRight leftPure rightPure es
    let leftEs := if srcIsLeft then fr.1 else fr.2.1
    let rightEs := if srcIsRight then fr.1 else fr.2.2
    let left := node_ptr.bkt (if leftPure then bflag.pure else bflag.hybrid)
                  c0 j leftTag leftEs
    let right := node_ptr.bkt (if rightPure then bflag.pure else bflag.hybrid)
                  (j + 1) c1 rightTag rightEs
    (node_ptr.trie hv v tg (fun c =>
        if c0 ≤ c ∧ c ≤ j then left
        else if j + 1 ≤ c ∧ c ≤ c1 then right
        else xs c),
     next2)
  | p, _ => (p, next)

/-- C `hattrie_split`: one split step on `node` under `parent`.  A pure
bucket is promoted: a fresh trie node (`alloc_trie_node`, all 256 slots
pointing at the old bucket) replaces the parent slot `c0`; a zero-length
record is moved into the new node's `val` (setting `NODE_HAS_VAL`) and
deleted from the bucket; the bucket is re-tagged hybrid over
`[0x00, TRIE_MAXCHAR]`.  A hybrid bucket goes through `hattrie_split_h`. -/
def hattrie_split (next : Nat) (parent : node_ptr) (node : node_ptr) :
    node_ptr × Nat :=
  match parent, node with
  | node_ptr.trie hv v tg xs, node_ptr.bkt bflag.pure c0 _ btg es =>
      let emptyVal := ahtable_tryget es []
      let es2 := match emptyVal with
        | some _ => ahtable_del es []
        | none => es
      let newBkt := node_ptr.bkt bflag.hybrid 0 TRIE_MAXCHAR btg es2
      let tnew := node_ptr.trie emptyVal.isSome (emptyVal.getD 0) next
                    (fun _ => newBkt)
      (node_ptr.trie hv v tg (fun c2 => if c2 = c0 then tnew else xs c2),
       next + 1)
  | node_ptr.trie hv v tg xs, node_ptr.bkt bflag.hybrid c0 c1 btg es =>
      hattrie_split_h next (node_ptr.trie hv v tg xs)
        (node_ptr.bkt bflag.hybrid c0 c1 btg es)
  | p, _ => (p, next)

/-- Body of `hattrie_get` after the `len == 0` shortcut: descend with
`brk = 0`; if the residual length is 0 use the trie node's (or, on a hybrid
bucket, the parent's) value; while the reached bucket is full, split and
re-descend from the parent; finally delegate to `ahtable_get` (stripping the
leading byte on a pure bucket) and add the bucket growth to `T->m`.
`fuel` bounds the number of split iterations (the C `while` loop); `none`
means the bound was exceeded, or that the undefined `len - 1` underflow
(reaching a pure bucket with an exhausted key, after the descent read past
the key) was hit. -/
def get_loop (cfg : Nat) (k : Nat → byte_t) :
    Nat → hattrie_t → List byte_t → node_ptr → Nat → Nat →
    Option (hattrie_t × href)
  | fuel, T, ppath, parent, l, off =>
    let kk := fun i => k (i + off)
    let r := hattrie_consume parent kk l 0
    let path := ppath ++ (List.range (r.off + 1)).map kk
    let off2 := off + r.off
    if r.l = 0 then
      match r.node with
      | node_ptr.trie _ _ _ _ => some (hattrie_useval T path)
      | node_ptr.bkt bflag.hybrid _ _ _ _ => some (hattrie_useval T path.dropLast)
      | node_ptr.bkt bflag.pure _ _ _ _ => none
    else if cfg ≤ ahtable_size r.node.entries then
      match fuel with
      | 0 => none
      | fuel2 + 1 =>
        let pr := hattrie_split T.next r.parent r.node
        let ppath2 := path.dropLast
        let T2 := { T with root := updateAt T.root ppath2 (fun _ => pr.1),
                           next := pr.2 }
        get_loop cfg k fuel2 T2 ppath2 pr.1 r.l off2
    else
      match r.node with
      | node_ptr.bkt fl _ _ _ es =>
        let suffix :=
          if fl = bflag.pure then
            (List.range (r.l - 1)).map (fun i => k (i + (off2 + 1)))
          else
            (List.range r.l).map (fun i => k (i + off2))
        let es2 := ahtable_get_entries es suffix
        let T2 := { T with
          root := updateBucketAt T.root path (fun n =>
            match n with
            | node_ptr.bkt fl2 d0 d1 tg2 _ => node_ptr.bkt fl2 d0 d1 tg2 es2
            | n => n),
          m := T.m + (ahtable_size es2 - ahtable_size es) }
        some (T2, href.bucketVal path suffix)
      | _ => none

/-- C `hattrie_get`: inserting lookup.  With `len == 0` it returns
`&parent.t->val` on the root immediately (without `hattrie_useval`). -/
def hattrie_get (cfg : Nat) (T : hattrie_t) (k : Nat → byte_t) (len : Nat)
    (fuel : Nat) : Option (hattrie_t × href) :=
  if len = 0 then some (T, href.trieVal [])
  else get_loop cfg k fuel T [] T.root len 0

/-- Insert: `hattrie_get` followed by storing `v` through the returned
pointer. -/
def hattrie_insert (cfg : Nat) (T : hattrie_t) (k : Nat → byte_t) (len : Nat)
    (v : value_t) (fuel : Nat) : Option hattrie_t :=
  (hattrie_get cfg T k len fuel).map (fun p => writeRef p.1 p.2 v)

/-- C `hattrie_del`: find the node for the key; clear a trie-node value via
`hattrie_clrval`, or remove the record from the bucket and subtract the
bucket shrinkage from `T->m`. -/
def hattrie_del (T : hattrie_t) (k : Nat → byte_t) (len : Nat) :
    hattrie_t × Int :=
  match hattrie_find T k len with
  | none => (T, -1)
  | some fr =>
    match fr.node with
    | node_ptr.trie _ _ _ _ => hattrie_clrval T fr.path
    | node_ptr.bkt _ _ _ _ es =>
      let suffix := (List.range fr.l).map (fun i => k (i + fr.off))
      let es2 := ahtable_del es suffix
      let ret : Int := if (es.find? (fun e => e.1 = suffix)).isSome then 0 else -1
      ({ T with
          root := updateBucketAt T.root fr.path (fun n =>
            match n with
            | node_ptr.bkt fl2 d0 d1 tg2 _ => node_ptr.bkt fl2 d0 d1 tg2 es2
            | n => n),
          m := T.m - (ahtable_size es - ahtable_size es2) }, ret)

/-- The `NODE_HAS_VAL` bit of the root node's flag. -/
def rootHasVal (T : hattrie_t) : Bool :=
  match T.root with
  | node_ptr.trie hv _ _ _ => hv
  | _ => false

/-- C3 counterexample: on a fresh container, `hattrie_get(T, key, 0)` does
not set `NODE_HAS_VAL` on the root and does not increment `m` (line 370 of
hat-trie.c returns `&parent.t->val` directly, without `hattrie_useval`),
contradicting the claim. -/
theorem hattrie_get_empty_key_cex :
    ¬ (∀ T2 r, hattrie_get TRIE_BUCKET_SIZE hattrie_create (fun _ => 0) 0 1 =
          some (T2, r) →
        rootHasVal T2 = true ∧ T2.m = hattrie_create.m + 1) := by
  intro h
  have h2 := h hattrie_create (href.trieVal []) rfl
  simp [rootHasVal, hattrie_create] at h2

/-- C3 (amended): for every container and key, `hattrie_get(T, key, 0)`
returns a pointer to the root's `val` field and leaves the container
unchanged: it neither sets `NODE_HAS_VAL` nor increments `m`. -/
theorem hattrie_get_empty_key_amended (cfg fuel : Nat) (T : hattrie_t)
    (k : Nat → byte_t) :
    hattrie_get cfg T k 0 fuel = some (T, href.trieVal []) := rfl

/-- C4 counterexample: on a freshly created container the root does not have
`NODE_HAS_VAL`, yet `hattrie_tryget(T, key, 0)` does not return null
(`hattrie_find` with `len == 0` returns the root before any `NODE_HAS_VAL`
check), contradicting the claim. -/
theorem hattrie_tryget_empty_key_cex :
    rootHasVal hattrie_create = false ∧
    ¬ (hattrie_tryget hattrie_create (fun _ => 0) 0 = none) := by
  constructor
  · rfl
  · intro h
    simp [hattrie_tryget, hattrie_find, hattrie_create] at h

/-- C4 (amended): for every container whose root is a trie node (as always
in this implementation), `hattrie_tryget(T, key, 0)` returns a pointer to
the root's `val` field unconditionally — whether or not `NODE_HAS_VAL` is
set, and in particular (non-null) on a freshly created container. -/
theorem hattrie_tryget_empty_key_amended (T : hattrie_t) (k : Nat → byte_t)
    (hv : Bool) (v : value_t) (tg : Nat) (xs : Nat → node_ptr)
    (h : T.root = node_ptr.trie hv v tg xs) :
    hattrie_tryget T k 0 = some (href.trieVal []) := by
  simp [hattrie_tryget, hattrie_find, h]

/-- Witness for the amended C4 theorem at the freshly created container. -/
theorem hattrie_tryget_empty_key_amended_witness :
    hattrie_tryget hattrie_create (fun _ => 0) 0 = some (href.trieVal []) :=
  hattrie_tryget_empty_key_amended hattrie_create (fun _ => 0) false 0 1
    (fun _ => node_ptr.bkt bflag.hybrid 0 255 0 []) rfl

theorem nodeAt_append (q : List byte_t) :
    ∀ (n : node_ptr) (p : List byte_t),
      nodeAt n (p ++ q) = (nodeAt n p).bind (fun m => nodeAt m q) := by
  intro n p
  induction p generalizing n with
  | nil => simp [nodeAt]
  | cons c p ih =>
    cases n with
    | trie hv v tg xs => simp [nodeAt, ih]
    | bkt fl c0 c1 tg es => simp [nodeAt]

theorem nodeAt_single_trie (n : node_ptr) (c : byte_t) (h : n.isTrie = true) :
    nodeAt n [c] = some (n.child c.val) := by
  cases n with
  | trie hv v tg xs => simp [nodeAt, node_ptr.child]
  | bkt fl c0 c1 tg es => simp [node_ptr.isTrie] at h

/-- Loop invariant of `hattrie_consume`, relative to the node `p` the
descent started from: the result's position, the node and parent it lands
on, that every node strictly above the landing node is a trie node, and the
exit condition. -/
theorem consume_go_spec (k : Nat → byte_t) (brk len : Nat) (p : node_ptr) :
    ∀ l off pp node,
      l + off = len → brk ≤ l →
      nodeAt p ((List.range off).map k) = some pp →
      pp.isTrie = true →
      nodeAt p ((List.range (off + 1)).map k) = some node →
      (∀ i, i ≤ off → ∃ n, nodeAt p ((List.range i).map k) = some n ∧
        n.isTrie = true) →
      ((consume_go k brk l pp off node).l + (consume_go k brk l pp off node).off
          = len ∧
       brk ≤ (consume_go k brk l pp off node).l ∧
       off ≤ (consume_go k brk l pp off node).off ∧
       nodeAt p ((List.range ((consume_go k brk l pp off node).off + 1)).map k) =
         some (consume_go k brk l pp off node).node ∧
       nodeAt p ((List.range ((consume_go k brk l pp off node).off)).map k) =
         some (consume_go k brk l pp off node).parent ∧
       (consume_go k brk l pp off node).parent.isTrie = true ∧
       (∀ i, i ≤ (consume_go k brk l pp off node).off →
         ∃ n, nodeAt p ((List.range i).map k) = some n ∧ n.isTrie = true) ∧
       ((consume_go k brk l pp off node).node.isTrie = true →
         (consume_go k brk l pp off node).l ≤ brk)) := by
  intro l
  induction l with
  | zero =>
    intro off pp node hlen hbrk hpp hppT hnode htries
    exact ⟨hlen, hbrk, le_refl _, hnode, hpp, hppT, htries, fun _ => Nat.zero_le brk⟩
  | succ l2 ih =>
    intro off pp node hlen hbrk hpp hppT hnode htries
    rw [consume_go]
    by_cases hc : node.isTrie = true ∧ brk < l2 + 1
    · rw [if_pos hc]
      have hnode2 : nodeAt p ((List.range (off + 1 + 1)).map k) =
          some (node.child (k (off + 1)).val) := by
        rw [List.range_succ, List.map_append, nodeAt_append, hnode]
        exact nodeAt_single_trie node (k (off + 1)) hc.1
      obtain ⟨a1, a2, a3, a4, a5, a6, a7, a8⟩ :=
        ih (off + 1) node (node.child (k (off + 1)).val)
          (by omega) (by omega) hnode hc.1 hnode2
          (fun i hi => by
            rcases Nat.lt_or_ge i (off + 1) with h2 | h2
            · exact htries i (by omega)
            · have : i = off + 1 := by omega
              exact this ▸ ⟨node, hnode, hc.1⟩)
      exact ⟨a1, a2, by omega, a4, a5, a6, a7, a8⟩
    · rw [if_neg hc]
      refine ⟨hlen, hbrk, le_refl _, hnode, hpp, hppT, htries, ?_⟩
      intro ht
      rcases Nat.lt_or_ge brk (l2 + 1) with h2 | h2
      · exact absurd ⟨ht, h2⟩ hc
      · exact h2

/-- Descent characterisation of `hattrie_consume` from a trie node `p`:
writing `r` for the result, `r.l + r.off = len` and `brk ≤ r.l`; the node
returned is the child reached by the first `r.off + 1` stream bytes; its
parent is the trie node above it; every strict ancestor is a trie node (so a
non-trie result is the first non-trie child encountered); and a trie node is
returned only with the residual length at `brk`. -/
theorem hattrie_consume_spec (p : node_ptr) (k : Nat → byte_t) (len brk : Nat)
    (hp : p.isTrie = true) (hbl : brk ≤ len) :
    ((hattrie_consume p k len brk).l + (hattrie_consume p k len brk).off = len ∧
     brk ≤ (hattrie_consume p k len brk).l ∧
     0 ≤ (hattrie_consume p k len brk).off ∧
     nodeAt p ((List.range ((hattrie_consume p k len brk).off + 1)).map k) =
       some (hattrie_consume p k len brk).node ∧
     nodeAt p ((List.range ((hattrie_consume p k len brk).off)).map k) =
       some (hattrie_consume p k len brk).parent ∧
     (hattrie_consume p k len brk).parent.isTrie = true ∧
     (∀ i, i ≤ (hattrie_consume p k len brk).off →
       ∃ n, nodeAt p ((List.range i).map k) = some n ∧ n.isTrie = true) ∧
     ((hattrie_consume p k len brk).node.isTrie = true →
       (hattrie_consume p k len brk).l ≤ brk)) := by
  unfold hattrie_consume
  exact consume_go_spec k brk len p len 0 p (p.child (k 0).val)
    (by omega) hbl (by simp [nodeAt]) hp
    (by simpa using nodeAt_single_trie p (k 0) hp)
    (fun i hi => by
      have : i = 0 := by omega
      subst this
      exact ⟨p, by simp [nodeAt], hp⟩)

theorem consume_go_congr (brk : Nat) (k k2 : Nat → byte_t) :
    ∀ l pp off node,
      (∀ i, off < i → i ≤ off + (l - brk) → k i = k2 i) →
      consume_go k brk l pp off node = consume_go k2 brk l pp off node := by
  intro l
  induction l with
  | zero => intro pp off node _; rfl
  | succ l2 ih =>
    intro pp off node hagree
    rw [consume_go, consume_go]
    by_cases hc : node.isTrie = true ∧ brk < l2 + 1
    · obtain ⟨hct, hcl⟩ := hc
      rw [if_pos ⟨hct, hcl⟩, if_pos ⟨hct, hcl⟩]
      have hk : k (off + 1) = k2 (off + 1) := hagree _ (by omega) (by omega)
      rw [hk]
      exact ih node (off + 1) _ (fun i h1 h2 => hagree i (by omega) (by omega))
    · rw [if_neg hc, if_neg hc]

/-- The byte positions `hattrie_consume` can examine are `0 .. l - brk`. -/
theorem hattrie_consume_congr (p : node_ptr) (k k2 : Nat → byte_t) (l brk : Nat)
    (hagree : ∀ i, i ≤ l - brk → k i = k2 i) :
    hattrie_consume p k l brk = hattrie_consume p k2 l brk := by
  unfold hattrie_consume
  rw [hagree 0 (Nat.zero_le _)]
  exact consume_go_congr brk k k2 l p 0 _ (fun i h1 h2 => hagree i (by omega))

/-- Concrete trie child used to exhibit the out-of-bounds read of
`hattrie_consume` with `brk = 0`: its slots 0 and 1 hold distinct buckets. -/
def consume_cex_child : node_ptr :=
  node_ptr.trie false 0 2 (fun c =>
    if c = 0 then node_ptr.bkt bflag.pure 0 0 10 []
    else node_ptr.bkt bflag.hybrid 1 255 11 [])

/-- Concrete trie used to exhibit the out-of-bounds read: slot 97 holds a
trie child, so a 1-byte key `"a"` is consumed entirely on trie nodes. -/
def consume_cex_root : node_ptr :=
  node_ptr.trie false 0 1 (fun c =>
    if c = 97 then consume_cex_child else node_ptr.bkt bflag.hybrid 0 255 12 [])

/-- C5 counterexample: with `brk = 0` and a trie whose depth along the key
reaches the key length, `hattrie_consume` examines the byte at index `len`
(one past the key): two streams agreeing on the first `len = 1` bytes
produce different results, contradicting the claim that only the first
`len` bytes are examined. -/
theorem hattrie_consume_cex :
    ¬ (∀ (k k2 : Nat → byte_t), (∀ i, i < 1 → k i = k2 i) →
        hattrie_consume consume_cex_root k 1 0 =
          hattrie_consume consume_cex_root k2 1 0) := by
  intro h
  have h2 := h (fun _ => (97 : byte_t)) (fun i => if i = 0 then (97 : byte_t) else 0)
    (fun i hi => by
      have h0 : i = 0 := by omega
      simp [h0])
  have h3 := congrArg (fun r => r.node.tag) h2
  exact absurd h3 (by decide)

/-- C5 (amended): for every trie node `p` and key of length `len ≥ 1`:
with `brk = 1` the helper examines only the first `len` bytes; with
`brk = 0` it examines at most the first `len + 1` bytes (it reads the byte
at index `len` when the whole key is consumed on trie nodes); and for
`brk ∈ {0, 1}` the returned node is the child reached by the examined
bytes, every node strictly above it on that path is a trie node (so a
non-trie result is the first non-trie child encountered), and a trie node
is returned exactly with the residual length at `brk`. -/
theorem hattrie_consume_amended (p : node_ptr) (len : Nat)
    (hp : p.isTrie = true) (hlen : 1 ≤ len) :
    (∀ k k2 : Nat → byte_t, (∀ i, i < len → k i = k2 i) →
        hattrie_consume p k len 1 = hattrie_consume p k2 len 1) ∧
    (∀ k k2 : Nat → byte_t, (∀ i, i < len + 1 → k i = k2 i) →
        hattrie_consume p k len 0 = hattrie_consume p k2 len 0) ∧
    (∀ (k : Nat → byte_t) (brk : Nat), brk ≤ 1 →
      nodeAt p ((List.range ((hattrie_consume p k len brk).off + 1)).map k) =
        some (hattrie_consume p k len brk).node ∧
      (∀ i, i ≤ (hattrie_consume p k len brk).off →
        ∃ n, nodeAt p ((List.range i).map k) = some n ∧ n.isTrie = true) ∧
      (hattrie_consume p k len brk).l + (hattrie_consume p k len brk).off = len ∧
      ((hattrie_consume p k len brk).node.isTrie = true →
        (hattrie_consume p k len brk).l = brk)) := by
  refine ⟨?_, ?_, ?_⟩
  · intro k k2 hagree
    exact hattrie_consume_congr p k k2 len 1 (fun i hi => hagree i (by omega))
  · intro k k2 hagree
    exact hattrie_consume_congr p k k2 len 0 (fun i hi => hagree i (by omega))
  · intro k brk hbrk
    obtain ⟨a1, a2, a3, a4, a5, a6, a7, a8⟩ :=
      hattrie_consume_spec p k len brk hp (by omega)
    exact ⟨a4, a7, a1, fun ht => le_antisymm (a8 ht) a2⟩

/-- Witness for the amended C5 theorem at a concrete trie and length. -/
theorem hattrie_consume_amended_witness :
    consume_cex_root.isTrie = true ∧ (1 : Nat) ≤ 1 ∧
    ((∀ k k2 : Nat → byte_t, (∀ i, i < 1 → k i = k2 i) →
        hattrie_consume consume_cex_root k 1 1 =
          hattrie_consume consume_cex_root k2 1 1) ∧
     (∀ k k2 : Nat → byte_t, (∀ i, i < 1 + 1 → k i = k2 i) →
        hattrie_consume consume_cex_root k 1 0 =
          hattrie_consume consume_cex_root k2 1 0) ∧
     (∀ (k : Nat → byte_t) (brk : Nat), brk ≤ 1 →
      nodeAt consume_cex_root
          ((List.range ((hattrie_consume consume_cex_root k 1 brk).off + 1)).map k) =
        some (hattrie_consume consume_cex_root k 1 brk).node ∧
      (∀ i, i ≤ (hattrie_consume consume_cex_root k 1 brk).off →
        ∃ n, nodeAt consume_cex_root ((List.range i).map k) = some n ∧
          n.isTrie = true) ∧
      (hattrie_consume consume_cex_root k 1 brk).l +
          (hattrie_consume consume_cex_root k 1 brk).off = 1 ∧
      ((hattrie_consume consume_cex_root k 1 brk).node.isTrie = true →
        (hattrie_consume consume_cex_root k 1 brk).l = brk))) :=
  ⟨by decide, by decide, hattrie_consume_amended consume_cex_root 1 (by decide) (by decide)⟩

/-- The `NODE_HAS_VAL` bit of a node's flag byte. -/
def node_ptr.hasVal : node_ptr → Bool
  | node_ptr.trie hv _ _ _ => hv
  | _ => false

/-- The `val` field of a trie node. -/
def node_ptr.val : node_ptr → value_t
  | node_ptr.trie _ v _ _ => v
  | _ => 0

theorem ahtable_del_absent (es : ah_entries) (k : List byte_t)
    (h : ahtable_tryget es k = none) : ahtable_del es k = es := by
  unfold ahtable_tryget at h
  rw [Option.map_eq_none'] at h
  rw [List.find?_eq_none] at h
  unfold ahtable_del
  apply List.filter_eq_self.mpr
  intro e he
  have h2 := h e he
  simpa using h2

/-- C7: `hattrie_split` on a pure bucket `B` under `parent`: the parent slot
`B->c0` is redirected to a freshly allocated trie node (tag `nx`, consuming
one allocation) every one of whose child slots points to the same bucket
object `B` (tag unchanged), now flagged `HYBRID_BUCKET` over
`[0x00, TRIE_MAXCHAR]`; a zero-length record, if present, has its value
moved into the new node's `val` with `NODE_HAS_VAL` set and is deleted from
`B`; all other records stay, and all other parent slots are untouched. -/
theorem hattrie_split_pure_promotion (nx : Nat) (hv : Bool) (v : value_t)
    (tg : Nat) (xs : Nat → node_ptr) (c0 c1 btg : Nat) (es : ah_entries) :
    hattrie_split nx (node_ptr.trie hv v tg xs)
        (node_ptr.bkt bflag.pure c0 c1 btg es) =
      (node_ptr.trie hv v tg (fun c2 =>
          if c2 = c0 then
            node_ptr.trie (ahtable_tryget es []).isSome
              ((ahtable_tryget es []).getD 0) nx
              (fun _ => node_ptr.bkt bflag.hybrid 0 TRIE_MAXCHAR btg
                          (ahtable_del es []))
          else xs c2),
       nx + 1) := by
  cases h : ahtable_tryget es [] with
  | none =>
    simp only [hattrie_split, h, Option.isSome_none, Option.getD_none]
    rw [ahtable_del_absent es [] h]
  | some w =>
    simp only [hattrie_split, h, Option.isSome_some, Option.getD_some]

/-- C constant `SLAB_SIZE` (slab.h): 64 KiB slabs. -/
def SLAB_SIZE : Nat := 65536

/-- C `slab_t` descriptor (slab.h).  `base` is the slab's (aligned) address;
the intrusive free list threaded through the first word of each free record
is modelled as the list of free record addresses starting at `head`. -/
structure slab_t where
  base : Nat
  bufsize : Nat
  bufs_count : Nat
  bufs_free : Nat
  head : List Nat
deriving DecidableEq, Repr

/-- C `slab_cache_t`: the two doubly-linked slab lists, as Lean lists with
the C list head first. -/
structure slab_cache_t where
  bufsize : Nat
  slabs_free : List slab_t
  slabs_full : List slab_t
deriving DecidableEq, Repr

/-- C `slab_from_ptr(p)`: `(void*)((size_t)(p) & SLAB_MASK)` with
`SLAB_MASK = ~((size_t)SLAB_SIZE - 1)` on a 64-bit `size_t`, i.e. the mask
keeps bits 16..63. -/
def slab_from_ptr (p : Nat) : Nat := Nat.land p (2 ^ 64 - SLAB_SIZE)

/-- C `slab_free(ptr)`: ignore null; derive the owning slab header from the
pointer by address masking; push the record onto the slab's intrusive free
list and increment `bufs_free`; when `bufs_free` becomes 1 move the slab
(out of whichever list holds it) to the head of `slabs_free`.  The C code
casts the masked address straight to `slab_t*`; the model locates that slab
in the cache's lists (`none` found models the precondition violation where
`ptr` was not allocated from this cache). -/
def slab_free (c : slab_cache_t) (p : Nat) : slab_cache_t :=
  if p = 0 then c
  else
    let b := slab_from_ptr p
    match (c.slabs_free ++ c.slabs_full).find? (fun t => t.base = b) with
    | none => c
    | some s =>
      let s2 : slab_t := { s with head := p :: s.head, bufs_free := s.bufs_free + 1 }
      if s2.bufs_free = 1 then
        { c with
          slabs_free := s2 :: c.slabs_free.filter (fun t => ¬ t.base = b),
          slabs_full := c.slabs_full.filter (fun t => ¬ t.base = b) }
      else
        { c with
          slabs_free := c.slabs_free.map (fun t => if t.base = b then s2 else t),
          slabs_full := c.slabs_full.map (fun t => if t.base = b then s2 else t) }

theorem find?_base (b : Nat) (s : slab_t) :
    ∀ l : List slab_t, s ∈ l → s.base = b → (l.map slab_t.base).Nodup →
      l.find? (fun t => t.base = b) = some s := by
  intro l
  induction l with
  | nil => intro hs; cases hs
  | cons t l ih =>
    intro hs hb hnd
    rcases List.mem_cons.mp hs with h1 | h1
    · subst h1
      simp [List.find?, hb]
    · have hnb : ¬ t.base = b := by
        intro he
        have : b ∈ l.map slab_t.base := List.mem_map.mpr ⟨s, h1, hb⟩
        rw [← he] at this
        exact (List.nodup_cons.mp (by simpa using hnd)).1 this
      simp only [List.find?]
      rw [decide_eq_false hnb]
      exact ih h1 hb (List.nodup_cons.mp (by simpa using hnd)).2

/-- C9: for a pointer `p` previously returned by `slab_cache_alloc` and not
yet freed (so its owning slab — the one whose base is the masked address
`p & ~(SLAB_SIZE - 1)` computed by `slab_from_ptr` — is in exactly one of
the cache's two lists, and it sits in `slabs_full` exactly when it has no
free record): `slab_free(p)` pushes `p` as the new head of that slab's
intrusive free list and increments its `bufs_free` by one; when `bufs_free`
transitions from 0 to 1 the slab moves from `slabs_full` to the head of
`slabs_free`, and otherwise both lists keep their membership (`slabs_full`
is unchanged). -/
theorem slab_free_spec (c : slab_cache_t) (p : Nat) (s : slab_t)
    (hp : ¬ p = 0)
    (hmem : s ∈ c.slabs_free ++ c.slabs_full)
    (hbase : s.base = slab_from_ptr p)
    (hnd : ((c.slabs_free ++ c.slabs_full).map slab_t.base).Nodup)
    (hfull : s ∈ c.slabs_full ↔ s.bufs_free = 0) :
    (s.bufs_free = 0 →
        s ∈ c.slabs_full ∧
        (slab_free c p).slabs_free.head? =
          some { s with head := p :: s.head, bufs_free := s.bufs_free + 1 } ∧
        (slab_free c p).slabs_full =
          c.slabs_full.filter (fun t => ¬ t.base = slab_from_ptr p)) ∧
    (0 < s.bufs_free →
        s ∈ c.slabs_free ∧
        ({ s with head := p :: s.head, bufs_free := s.bufs_free + 1 } : slab_t) ∈
          (slab_free c p).slabs_free ∧
        (slab_free c p).slabs_full = c.slabs_full) := by
  have hfind := find?_base (slab_from_ptr p) s (c.slabs_free ++ c.slabs_full)
    hmem hbase hnd
  constructor
  · intro h0
    have hrun : slab_free c p =
        { c with
          slabs_free := { s with head := p :: s.head, bufs_free := s.bufs_free + 1 } ::
            c.slabs_free.filter (fun t => ¬ t.base = slab_from_ptr p),
          slabs_full := c.slabs_full.filter (fun t => ¬ t.base = slab_from_ptr p) } := by
      simp [slab_free, hp, hfind, h0]
    exact ⟨hfull.mpr h0, by rw [hrun]; rfl, by rw [hrun]⟩
  · intro h1
    have hsf : s ∈ c.slabs_free := by
      rcases List.mem_append.mp hmem with h | h
      · exact h
      · exact absurd (hfull.mp h) (by omega)
    have hne : ¬ s.bufs_free + 1 = 1 := by omega
    have hrun : slab_free c p =
        { c with
          slabs_free := c.slabs_free.map
            (fun t => if t.base = slab_from_ptr p
              then { s with head := p :: s.head, bufs_free := s.bufs_free + 1 } else t),
          slabs_full := c.slabs_full.map
            (fun t => if t.base = slab_from_ptr p
              then { s with head := p :: s.head, bufs_free := s.bufs_free + 1 } else t) } := by
      simp [slab_free, hp, hfind, hne]
    have hdisj : ∀ t ∈ c.slabs_full, ¬ t.base = slab_from_ptr p := by
      intro t ht he
      rw [List.map_append] at hnd
      have hd := List.disjoint_of_nodup_append hnd
      exact hd (by rw [← hbase] at he ⊢; exact List.mem_map.mpr ⟨s, hsf, rfl⟩)
        (List.mem_map.mpr ⟨t, ht, he⟩)
    refine ⟨hsf, ?_, ?_⟩
    · rw [hrun]
      exact List.mem_map.mpr ⟨s, hsf, by rw [if_pos hbase]⟩
    · rw [hrun]
      have : ∀ t ∈ c.slabs_full,
          (if t.base = slab_from_ptr p
            then ({ s with head := p :: s.head, bufs_free := s.bufs_free + 1 } : slab_t)
            else t) = t := by
        intro t ht
        rw [if_neg (hdisj t ht)]
      rw [List.map_congr_left this]
      exact List.map_id _

/-- Concrete slab for the C9 witness: a full slab (no free record) at the
aligned base address 65536. -/
def witness_slab : slab_t := ⟨65536, 80, 10, 0, []⟩

/-- Concrete cache for the C9 witness: `witness_slab` sits in `slabs_full`. -/
def witness_cache : slab_cache_t := ⟨80, [], [witness_slab]⟩

/-- Witness for `slab_free_spec`: freeing the record at address 65552 pushes
it on the free list of the slab at 65536 (derived by masking), increments
`bufs_free` from 0 to 1, and moves the slab to the head of `slabs_free`. -/
theorem slab_free_spec_witness :
    (slab_free witness_cache 65552).slabs_free.head? =
      some ⟨65536, 80, 10, 1, [65552]⟩ ∧
    (slab_free witness_cache 65552).slabs_full = [] := by
  have h := slab_free_spec witness_cache 65552 witness_slab (by decide)
    (by decide) (by decide) (by decide) (by decide)
  have h2 := h.1 rfl
  exact ⟨h2.2.1, h2.2.2⟩

/-- Abstract key-to-value mapping stored in (the subtree rooted at) a node:
follow trie edges byte by byte; a value sitting on a trie node (guarded by
`NODE_HAS_VAL`) is the binding of the path ending there; a pure bucket holds
the suffixes with the leading byte already consumed by the parent edge; a
hybrid bucket holds the suffixes with their leading byte. -/
def lookupNode : node_ptr → List byte_t → Option value_t
  | node_ptr.trie hv v _ _, [] => if hv then some v else none
  | node_ptr.trie _ _ _ xs, c :: s =>
    (match xs c.val with
     | node_ptr.trie hv2 v2 tg2 xs2 => lookupNode (node_ptr.trie hv2 v2 tg2 xs2) s
     | node_ptr.bkt bflag.pure _ _ _ es => ahtable_tryget es s
     | node_ptr.bkt bflag.hybrid _ _ _ es => ahtable_tryget es (c :: s))
  | node_ptr.bkt _ _ _ _ _, _ => none

/-- Records whose leading byte is at most `split` (the keep/left side of
`hattrie_split_fill`). -/
def keeps_le (split : Nat) (es : ah_entries) : ah_entries :=
  es.filter (fun e => (e.1.headD 0).val ≤ split)

/-- Records whose leading byte exceeds `split` (the right side of
`hattrie_split_fill`). -/
def keeps_gt (split : Nat) (es : ah_entries) : ah_entries :=
  es.filter (fun e => split < (e.1.headD 0).val)

/-- Strip the leading byte of every record key (`key + 1, len - 1`). -/
def strip1 (es : ah_entries) : ah_entries :=
  es.map (fun e => (e.1.tail, e.2))

theorem fill_go_left_src (split : Nat) (lp rp : Bool) :
    ∀ es : ah_entries,
      fill_go split true false lp rp es =
        (keeps_le split es, [],
         if rp then strip1 (keeps_gt split es) else keeps_gt split es) := by
  intro es
  induction es with
  | nil => cases rp <;> rfl
  | cons e es ih =>
    obtain ⟨key, u⟩ := e
    simp only [fill_go, ih]
    by_cases hsp : split < (key.headD 0).val
    · rw [if_pos hsp]
      have h1 : ¬ ((key.headD 0).val ≤ split) := by omega
      simp only [keeps_le, keeps_gt, strip1, List.filter_cons, List.map_cons]
      rw [decide_eq_false h1, decide_eq_true hsp]
      cases rp <;> simp
    · rw [if_neg hsp]
      have h1 : (key.headD 0).val ≤ split := by omega
      simp only [keeps_le, keeps_gt, strip1, List.filter_cons, List.map_cons]
      rw [decide_eq_true h1, decide_eq_false hsp]
      cases rp <;> simp

theorem fill_go_right_src (split : Nat) (lp rp : Bool) :
    ∀ es : ah_entries,
      fill_go split false true lp rp es =
        (keeps_gt split es,
         if lp then strip1 (keeps_le split es) else keeps_le split es, []) := by
  intro es
  induction es with
  | nil => cases lp <;> rfl
  | cons e es ih =>
    obtain ⟨key, u⟩ := e
    simp only [fill_go, ih]
    by_cases hsp : split < (key.headD 0).val
    · rw [if_pos hsp]
      have h1 : ¬ ((key.headD 0).val ≤ split) := by omega
      simp only [keeps_le, keeps_gt, strip1, List.filter_cons, List.map_cons]
      rw [decide_eq_false h1, decide_eq_true hsp]
      cases lp <;> simp
    · rw [if_neg hsp]
      have h1 : (key.headD 0).val ≤ split := by omega
      simp only [keeps_le, keeps_gt, strip1, List.filter_cons, List.map_cons]
      rw [decide_eq_true h1, decide_eq_false hsp]
      cases lp <;> simp

theorem fill_go_fresh (split : Nat) (lp rp : Bool) :
    ∀ es : ah_entries,
      fill_go split false false lp rp es =
        (es,
         if lp then strip1 (keeps_le split es) else keeps_le split es,
         if rp then strip1 (keeps_gt split es) else keeps_gt split es) := by
  intro es
  induction es with
  | nil => cases lp <;> cases rp <;> rfl
  | cons e es ih =>
    obtain ⟨key, u⟩ := e
    simp only [fill_go, ih]
    by_cases hsp : split < (key.headD 0).val
    · rw [if_pos hsp]
      have h1 : ¬ ((key.headD 0).val ≤ split) := by omega
      simp only [keeps_le, keeps_gt, strip1, List.filter_cons, List.map_cons]
      rw [decide_eq_false h1, decide_eq_true hsp]
      cases lp <;> cases rp <;> simp
    · rw [if_neg hsp]
      have h1 : (key.headD 0).val ≤ split := by omega
      simp only [keeps_le, keeps_gt, strip1, List.filter_cons, List.map_cons]
      rw [decide_eq_true h1, decide_eq_false hsp]
      cases lp <;> cases rp <;> simp

theorem tryget_keeps_le (split : Nat) (a : byte_t) (s : List byte_t)
    (ha : a.val ≤ split) :
    ∀ es : ah_entries,
      ahtable_tryget (keeps_le split es) (a :: s) = ahtable_tryget es (a :: s) := by
  intro es
  induction es with
  | nil => rfl
  | cons e es ih =>
    by_cases hk : e.1 = a :: s
    · have hh : (e.1.headD 0).val ≤ split := by rw [hk]; simpa using ha
      simp only [keeps_le, List.filter_cons, decide_eq_true hh]
      simp only [ahtable_tryget, List.find?, decide_eq_true hk]
    · by_cases hh : (e.1.headD 0).val ≤ split
      · simp only [keeps_le, List.filter_cons, decide_eq_true hh]
        simp only [ahtable_tryget, List.find?, decide_eq_false hk]
        exact ih
      · simp only [keeps_le, List.filter_cons, decide_eq_false hh]
        simp only [ahtable_tryget, List.find?, decide_eq_false hk]
        exact ih

theorem tryget_keeps_gt (split : Nat) (a : byte_t) (s : List byte_t)
    (ha : split < a.val) :
    ∀ es : ah_entries,
      ahtable_tryget (keeps_gt split es) (a :: s) = ahtable_tryget es (a :: s) := by
  intro es
  induction es with
  | nil => rfl
  | cons e es ih =>
    by_cases hk : e.1 = a :: s
    · have hh : split < (e.1.headD 0).val := by rw [hk]; simpa using ha
      simp only [keeps_gt, List.filter_cons, decide_eq_true hh]
      simp only [ahtable_tryget, List.find?, decide_eq_true hk]
    · by_cases hh : split < (e.1.headD 0).val
      · simp only [keeps_gt, List.filter_cons, decide_eq_true hh]
        simp only [ahtable_tryget, List.find?, decide_eq_false hk]
        exact ih
      · simp only [keeps_gt, List.filter_cons, decide_eq_false hh]
        simp only [ahtable_tryget, List.find?, decide_eq_false hk]
        exact ih

theorem tryget_strip1 (a : byte_t) (s : List byte_t) :
    ∀ es : ah_entries, (∀ e ∈ es, e.1 ≠ [] ∧ (e.1.headD 0) = a) →
      ahtable_tryget (strip1 es) s = ahtable_tryget es (a :: s) := by
  intro es
  induction es with
  | nil => intro _; rfl
  | cons e es ih =>
    intro hall
    obtain ⟨hne, hhd⟩ := hall e (by simp)
    have hkey : e.1 = a :: e.1.tail := by
      cases h : e.1 with
      | nil => exact absurd h hne
      | cons x t =>
        rw [h] at hhd
        simp at hhd
        simp [hhd]
    have heq : (e.1.tail = s) ↔ (e.1 = a :: s) := by
      constructor <;> intro h2
      · rw [hkey, h2]
      · rw [h2]; rfl
    simp only [strip1, List.map_cons, ahtable_tryget, List.find?]
    by_cases h2 : e.1.tail = s
    · rw [decide_eq_true h2, decide_eq_true (heq.mp h2)]
      rfl
    · rw [decide_eq_false h2, decide_eq_false (fun hx => h2 (heq.mpr hx))]
      exact ih (fun x hx => hall x (by simp [hx]))

theorem split_mid_go_bounds (es : ah_entries) (c1 all_m : Nat) :
    ∀ n j l r, j < c1 →
      j ≤ (split_mid_go es c1 all_m n j l r).1 ∧
      (split_mid_go es c1 all_m n j l r).1 < c1 := by
  intro n
  induction n with
  | zero => intro j l r hj; exact ⟨le_refl _, hj⟩
  | succ n ih =>
    intro j l r hj
    rw [split_mid_go]
    by_cases h1 : j + 1 < c1
    · rw [if_pos h1]
      by_cases h2 : (((l : Int) + split_cs es (j + 1)) -
            ((r : Int) - split_cs es (j + 1))).natAbs ≤
            ((l : Int) - (r : Int)).natAbs ∧ l + split_cs es (j + 1) < all_m
      · rw [if_pos h2]
        obtain ⟨b1, b2⟩ := ih (j + 1) (l + split_cs es (j + 1))
          (r - split_cs es (j + 1)) h1
        exact ⟨by omega, b2⟩
      · rw [if_neg h2]
        exact ⟨le_refl _, hj⟩
    · rw [if_neg h1]
      exact ⟨le_refl _, hj⟩

theorem hattrie_split_mid_bounds (fl : bflag) (c0 c1 btg : Nat) (es : ah_entries)
    (h : c0 < c1) :
    c0 ≤ (hattrie_split_mid (node_ptr.bkt fl c0 c1 btg es)).1 ∧
    (hattrie_split_mid (node_ptr.bkt fl c0 c1 btg es)).1 < c1 := by
  unfold hattrie_split_mid
  exact split_mid_go_bounds es c1 _ _ c0 _ _ h

/-- The dispatch `hattrie_find`/`lookupNode` performs on a child slot: a
trie child continues the descent, a pure bucket is probed with the leading
byte stripped, a hybrid bucket with the leading byte kept. -/
def lookupChild (n : node_ptr) (a : byte_t) (s : List byte_t) : Option value_t :=
  match n with
  | node_ptr.trie hv2 v2 tg2 xs2 => lookupNode (node_ptr.trie hv2 v2 tg2 xs2) s
  | node_ptr.bkt bflag.pure _ _ _ es => ahtable_tryget es s
  | node_ptr.bkt bflag.hybrid _ _ _ es => ahtable_tryget es (a :: s)

theorem lookupNode_cons (hv : Bool) (v : value_t) (tg : Nat)
    (xs : Nat → node_ptr) (a : byte_t) (s : List byte_t) :
    lookupNode (node_ptr.trie hv v tg xs) (a :: s) = lookupChild (xs a.val) a s := by
  cases hx : xs a.val with
  | trie hv2 v2 tg2 xs2 => simp [lookupNode, lookupChild, hx]
  | bkt fl c0 c1 tg2 es => cases fl <;> simp [lookupNode, lookupChild, hx]

theorem lookupChild_trie (n : node_ptr) (hn : n.isTrie = true) (a : byte_t)
    (s : List byte_t) : lookupChild n a s = lookupNode n s := by
  cases n with
  | trie hv v tg xs => rfl
  | bkt fl c0 c1 tg es => simp [node_ptr.isTrie] at hn

/-- Grafting a subtree that agrees on all lookups leaves the lookups of the
whole tree unchanged. -/
theorem lookup_updateAt (P P2 : node_ptr) (hP : P.isTrie = true)
    (hP2 : P2.isTrie = true) (hagree : ∀ q, lookupNode P2 q = lookupNode P q) :
    ∀ (ppath : List byte_t) (root : node_ptr),
      nodeAt root ppath = some P →
      ∀ q, lookupNode (updateAt root ppath (fun _ => P2)) q = lookupNode root q := by
  intro ppath
  induction ppath with
  | nil =>
    intro root hroot q
    simp [nodeAt] at hroot
    subst hroot
    simpa [updateAt] using hagree q
  | cons c rest ih =>
    intro root hroot q
    cases root with
    | bkt fl c0 c1 tg es => simp [nodeAt] at hroot
    | trie hv v tg xs =>
      have hchild : nodeAt (xs c.val) rest = some P := by
        simpa [nodeAt] using hroot
      cases q with
      | nil => rfl
      | cons a s =>
        rw [updateAt]
        rw [lookupNode_cons, lookupNode_cons]
        by_cases hac : a.val = c.val
        · rw [if_pos hac, hac]
          cases rest with
          | nil =>
            have hxP : xs c.val = P := by simpa [nodeAt] using hchild
            rw [updateAt, hxP]
            rw [lookupChild_trie _ hP2, lookupChild_trie _ hP]
            exact hagree s
          | cons d rest2 =>
            cases hxs : xs c.val with
            | bkt fl2 d0 d1 tg2 es2 => rw [hxs] at hchild; simp [nodeAt] at hchild
            | trie hv2 v2 tg2 xs2 =>
              rw [hxs] at hchild
              rw [lookupChild_trie _ (by rw [updateAt]; rfl),
                  lookupChild_trie (node_ptr.trie hv2 v2 tg2 xs2) rfl]
              exact ih (node_ptr.trie hv2 v2 tg2 xs2) hchild s
        · rw [if_neg hac]

theorem tryget_del_ne (k0 k : List byte_t) (h : ¬ k = k0) :
    ∀ es : ah_entries, ahtable_tryget (ahtable_del es k0) k = ahtable_tryget es k := by
  intro es
  induction es with
  | nil => rfl
  | cons e es ih =>
    by_cases hk : e.1 = k
    · have hne : ¬ e.1 = k0 := by rw [hk]; exact h
      simp only [ahtable_del, List.filter_cons, decide_eq_true hne]
      simp only [ahtable_tryget, List.find?, decide_eq_true hk]
    · by_cases h0 : e.1 = k0
      · simp only [ahtable_del, List.filter_cons]
        rw [decide_eq_false (by simpa using h0)]
        simp only [ahtable_tryget, List.find?, decide_eq_false hk]
        exact ih
      · simp only [ahtable_del, List.filter_cons]
        rw [decide_eq_true (by simpa using h0)]
        simp only [ahtable_tryget, List.find?, decide_eq_false hk]
        exact ih

/-- Pure-bucket promotion preserves every lookup through the parent. -/
theorem promotion_lookup (nx : Nat) (hv : Bool) (v : value_t) (tg : Nat)
    (xs : Nat → node_ptr) (c0 c1 btg : Nat) (es : ah_entries)
    (hslot : xs c0 = node_ptr.bkt bflag.pure c0 c1 btg es) :
    ∀ q, lookupNode (hattrie_split nx (node_ptr.trie hv v tg xs)
        (node_ptr.bkt bflag.pure c0 c1 btg es)).1 q =
      lookupNode (node_ptr.trie hv v tg xs) q := by
  intro q
  rw [hattrie_split_pure_promotion]
  cases q with
  | nil => rfl
  | cons a s =>
    rw [lookupNode_cons, lookupNode_cons]
    by_cases hac : a.val = c0
    · rw [if_pos hac, hac, hslot]
      cases s with
      | nil =>
        show (if (ahtable_tryget es []).isSome then
            some ((ahtable_tryget es []).getD 0) else none) = ahtable_tryget es []
        cases ahtable_tryget es [] <;> simp
      | cons b s2 =>
        show lookupChild (node_ptr.bkt bflag.hybrid 0 TRIE_MAXCHAR btg
            (ahtable_del es [])) b s2 = ahtable_tryget es (b :: s2)
        show ahtable_tryget (ahtable_del es []) (b :: s2) = ahtable_tryget es (b :: s2)
        exact tryget_del_ne [] (b :: s2) (by simp) es
    · rw [if_neg hac]

theorem split_h_run_fresh (nx : Nat) (hv : Bool) (v : value_t) (tg : Nat)
    (xs : Nat → node_ptr) (c0 c1 btg : Nat) (es : ah_entries) (J : Nat)
    (hJ : J = (hattrie_split_mid (node_ptr.bkt bflag.hybrid c0 c1 btg es)).1)
    (hrp : J + 1 = c1) (hlp : c0 = J) (ht1 : ¬ btg = nx) (ht2 : ¬ btg = nx + 1) :
    hattrie_split_h nx (node_ptr.trie hv v tg xs)
        (node_ptr.bkt bflag.hybrid c0 c1 btg es) =
      (node_ptr.trie hv v tg (fun c =>
          if c0 ≤ c ∧ c ≤ J then
            node_ptr.bkt bflag.pure c0 J (nx + 1) (strip1 (keeps_le J es))
          else if J + 1 ≤ c ∧ c ≤ c1 then
            node_ptr.bkt bflag.pure (J + 1) c1 nx (strip1 (keeps_gt J es))
          else xs c),
       nx + 2) := by
  simp only [hattrie_split_h]
  rw [← hJ]
  rw [if_pos hrp, if_pos hrp, if_pos hrp]
  rw [if_pos hlp.symm, if_pos hlp.symm]
  rw [if_pos hlp, if_pos hrp]
  rw [decide_eq_false ht2, decide_eq_false ht1]
  rw [decide_eq_true hlp, decide_eq_true hrp]
  rw [fill_go_fresh]
  simp [ht1, ht2]

theorem split_h_run_left_src (nx : Nat) (hv : Bool) (v : value_t) (tg : Nat)
    (xs : Nat → node_ptr) (c0 c1 btg : Nat) (es : ah_entries) (J : Nat)
    (hJ : J = (hattrie_split_mid (node_ptr.bkt bflag.hybrid c0 c1 btg es)).1)
    (hrp : J + 1 = c1) (hlnp : ¬ c0 = J) (ht1 : ¬ btg = nx) :
    hattrie_split_h nx (node_ptr.trie hv v tg xs)
        (node_ptr.bkt bflag.hybrid c0 c1 btg es) =
      (node_ptr.trie hv v tg (fun c =>
          if c0 ≤ c ∧ c ≤ J then
            node_ptr.bkt bflag.hybrid c0 J btg (keeps_le J es)
          else if J + 1 ≤ c ∧ c ≤ c1 then
            node_ptr.bkt bflag.pure (J + 1) c1 nx (strip1 (keeps_gt J es))
          else xs c),
       nx + 1) := by
  simp only [hattrie_split_h]
  rw [← hJ]
  simp only [if_pos hrp, if_neg (show ¬ J = c0 from fun h => hlnp h.symm),
    if_neg hlnp, decide_eq_false ht1, decide_eq_true hrp, decide_eq_false hlnp,
    decide_True, if_true]
  rw [fill_go_left_src]
  simp [ht1]

theorem split_h_run_right_src_pure (nx : Nat) (hv : Bool) (v : value_t) (tg : Nat)
    (xs : Nat → node_ptr) (c0 c1 btg : Nat) (es : ah_entries) (J : Nat)
    (hJ : J = (hattrie_split_mid (node_ptr.bkt bflag.hybrid c0 c1 btg es)).1)
    (hrnp : ¬ J + 1 = c1) (hlp : c0 = J) (ht1 : ¬ btg = nx) :
    hattrie_split_h nx (node_ptr.trie hv v tg xs)
        (node_ptr.bkt bflag.hybrid c0 c1 btg es) =
      (node_ptr.trie hv v tg (fun c =>
          if c0 ≤ c ∧ c ≤ J then
            node_ptr.bkt bflag.pure c0 J nx (strip1 (keeps_le J es))
          else if J + 1 ≤ c ∧ c ≤ c1 then
            node_ptr.bkt bflag.hybrid (J + 1) c1 btg (keeps_gt J es)
          else xs c),
       nx + 1) := by
  simp only [hattrie_split_h]
  rw [← hJ]
  simp only [if_neg hrnp, if_pos hlp, decide_eq_false ht1,
    decide_eq_false hrnp, decide_eq_true hlp, decide_True, if_true]
  rw [fill_go_right_src]
  simp [ht1]

theorem split_h_run_right_src_hyb (nx : Nat) (hv : Bool) (v : value_t) (tg : Nat)
    (xs : Nat → node_ptr) (c0 c1 btg : Nat) (es : ah_entries) (J : Nat)
    (hJ : J = (hattrie_split_mid (node_ptr.bkt bflag.hybrid c0 c1 btg es)).1)
    (hrnp : ¬ J + 1 = c1) (hlnp : ¬ c0 = J) (ht1 : ¬ btg = nx) :
    hattrie_split_h nx (node_ptr.trie hv v tg xs)
        (node_ptr.bkt bflag.hybrid c0 c1 btg es) =
      (node_ptr.trie hv v tg (fun c =>
          if c0 ≤ c ∧ c ≤ J then
            node_ptr.bkt bflag.hybrid c0 J nx (keeps_le J es)
          else if J + 1 ≤ c ∧ c ≤ c1 then
            node_ptr.bkt bflag.hybrid (J + 1) c1 btg (keeps_gt J es)
          else xs c),
       nx + 1) := by
  simp only [hattrie_split_h]
  rw [← hJ]
  simp only [if_neg hrnp, if_neg hlnp, decide_eq_false ht1,
    decide_eq_false hrnp, decide_eq_false hlnp, decide_True, if_true]
  rw [fill_go_right_src]
  simp [ht1]

/-- Key facts for stripping on a pure side: every surviving record's leading
byte equals the single byte `a` the pure side covers. -/
theorem tryget_pure_side (es2 : ah_entries) (a : byte_t) (s : List byte_t)
    (hall : ∀ e ∈ es2, e.1 ≠ [] ∧ (e.1.headD 0).val = a.val) :
    ahtable_tryget (strip1 es2) s = ahtable_tryget es2 (a :: s) := by
  apply tryget_strip1
  intro e he
  obtain ⟨h1, h2⟩ := hall e he
  exact ⟨h1, Fin.ext h2⟩

/-- Hybrid split preserves every lookup through the parent. -/
theorem split_h_lookup (nx : Nat) (hv : Bool) (v : value_t) (tg : Nat)
    (xs : Nat → node_ptr) (c0 c1 btg : Nat) (es : ah_entries)
    (hrange : ∀ c2, c0 ≤ c2 → c2 ≤ c1 →
      xs c2 = node_ptr.bkt bflag.hybrid c0 c1 btg es)
    (hkeys : ∀ e ∈ es, e.1 ≠ [] ∧ c0 ≤ (e.1.headD 0).val ∧ (e.1.headD 0).val ≤ c1)
    (hc01 : c0 < c1)
    (ht1 : ¬ btg = nx) (ht2 : ¬ btg = nx + 1) :
    ∀ q, lookupNode (hattrie_split_h nx (node_ptr.trie hv v tg xs)
        (node_ptr.bkt bflag.hybrid c0 c1 btg es)).1 q =
      lookupNode (node_ptr.trie hv v tg xs) q := by
  have hJdef : (hattrie_split_mid (node_ptr.bkt bflag.hybrid c0 c1 btg es)).1 =
      (hattrie_split_mid (node_ptr.bkt bflag.hybrid c0 c1 btg es)).1 := rfl
  obtain ⟨hjl, hju⟩ := hattrie_split_mid_bounds bflag.hybrid c0 c1 btg es hc01
  intro q
  by_cases hrp : (hattrie_split_mid (node_ptr.bkt bflag.hybrid c0 c1 btg es)).1 + 1 = c1
  · by_cases hlp : c0 = (hattrie_split_mid (node_ptr.bkt bflag.hybrid c0 c1 btg es)).1
    · rw [split_h_run_fresh nx hv v tg xs c0 c1 btg es _ rfl hrp hlp ht1 ht2]
      cases q with
      | nil => rfl
      | cons a s =>
        rw [lookupNode_cons, lookupNode_cons]
        by_cases h1 : c0 ≤ a.val ∧ a.val ≤
            (hattrie_split_mid (node_ptr.bkt bflag.hybrid c0 c1 btg es)).1
        · rw [if_pos h1, hrange a.val h1.1 (by omega)]
          show ahtable_tryget (strip1 (keeps_le _ es)) s = ahtable_tryget es (a :: s)
          rw [tryget_pure_side _ a s, tryget_keeps_le _ a s (by omega)]
          intro e he
          have hm := List.mem_filter.mp he
          obtain ⟨k1, k2, k3⟩ := hkeys e hm.1
          have hle := of_decide_eq_true hm.2
          exact ⟨k1, by omega⟩
        · by_cases h2 : (hattrie_split_mid (node_ptr.bkt bflag.hybrid c0 c1 btg es)).1
              + 1 ≤ a.val ∧ a.val ≤ c1
          · rw [if_neg h1, if_pos h2, hrange a.val (by omega) h2.2]
            show ahtable_tryget (strip1 (keeps_gt _ es)) s = ahtable_tryget es (a :: s)
            rw [tryget_pure_side _ a s, tryget_keeps_gt _ a s (by omega)]
            intro e he
            have hm := List.mem_filter.mp he
            obtain ⟨k1, k2, k3⟩ := hkeys e hm.1
            have hgt := of_decide_eq_true hm.2
            exact ⟨k1, by omega⟩
          · rw [if_neg h1, if_neg h2]
    · rw [split_h_run_left_src nx hv v tg xs c0 c1 btg es _ rfl hrp hlp ht1]
      cases q with
      | nil => rfl
      | cons a s =>
        rw [lookupNode_cons, lookupNode_cons]
        by_cases h1 : c0 ≤ a.val ∧ a.val ≤
            (hattrie_split_mid (node_ptr.bkt bflag.hybrid c0 c1 btg es)).1
        · rw [if_pos h1, hrange a.val h1.1 (by omega)]
          show ahtable_tryget (keeps_le _ es) (a :: s) = ahtable_tryget es (a :: s)
          exact tryget_keeps_le _ a s (by omega) es
        · by_cases h2 : (hattrie_split_mid (node_ptr.bkt bflag.hybrid c0 c1 btg es)).1
              + 1 ≤ a.val ∧ a.val ≤ c1
          · rw [if_neg h1, if_pos h2, hrange a.val (by omega) h2.2]
            show ahtable_tryget (strip1 (keeps_gt _ es)) s = ahtable_tryget es (a :: s)
            rw [tryget_pure_side _ a s, tryget_keeps_gt _ a s (by omega)]
            intro e he
            have hm := List.mem_filter.mp he
            obtain ⟨k1, k2, k3⟩ := hkeys e hm.1
            have hgt := of_decide_eq_true hm.2
            exact ⟨k1, by omega⟩
          · rw [if_neg h1, if_neg h2]
  · by_cases hlp : c0 = (hattrie_split_mid (node_ptr.bkt bflag.hybrid c0 c1 btg es)).1
    · rw [split_h_run_right_src_pure nx hv v tg xs c0 c1 btg es _ rfl hrp hlp ht1]
      cases q with
      | nil => rfl
      | cons a s =>
        rw [lookupNode_cons, lookupNode_cons]
        by_cases h1 : c0 ≤ a.val ∧ a.val ≤
            (hattrie_split_mid (node_ptr.bkt bflag.hybrid c0 c1 btg es)).1
        · rw [if_pos h1, hrange a.val h1.1 (by omega)]
          show ahtable_tryget (strip1 (keeps_le _ es)) s = ahtable_tryget es (a :: s)
          rw [tryget_pure_side _ a s, tryget_keeps_le _ a s (by omega)]
          intro e he
          have hm := List.mem_filter.mp he
          obtain ⟨k1, k2, k3⟩ := hkeys e hm.1
          have hle := of_decide_eq_true hm.2
          exact ⟨k1, by omega⟩
        · by_cases h2 : (hattrie_split_mid (node_ptr.bkt bflag.hybrid c0 c1 btg es)).1
              + 1 ≤ a.val ∧ a.val ≤ c1
          · rw [if_neg h1, if_pos h2, hrange a.val (by omega) h2.2]
            show ahtable_tryget (keeps_gt _ es) (a :: s) = ahtable_tryget es (a :: s)
            exact tryget_keeps_gt _ a s (by omega) es
          · rw [if_neg h1, if_neg h2]
    · rw [split_h_run_right_src_hyb nx hv v tg xs c0 c1 btg es _ rfl hrp hlp ht1]
      cases q with
      | nil => rfl
      | cons a s =>
        rw [lookupNode_cons, lookupNode_cons]
        by_cases h1 : c0 ≤ a.val ∧ a.val ≤
            (hattrie_split_mid (node_ptr.bkt bflag.hybrid c0 c1 btg es)).1
        · rw [if_pos h1, hrange a.val h1.1 (by omega)]
          show ahtable_tryget (keeps_le _ es) (a :: s) = ahtable_tryget es (a :: s)
          exact tryget_keeps_le _ a s (by omega) es
        · by_cases h2 : (hattrie_split_mid (node_ptr.bkt bflag.hybrid c0 c1 btg es)).1
              + 1 ≤ a.val ∧ a.val ≤ c1
          · rw [if_neg h1, if_pos h2, hrange a.val (by omega) h2.2]
            show ahtable_tryget (keeps_gt _ es) (a :: s) = ahtable_tryget es (a :: s)
            exact tryget_keeps_gt _ a s (by omega) es
          · rw [if_neg h1, if_neg h2]

/-- Pointer-level equality with a bucket: the node is a bucket with exactly
these fields (the model's rendering of `xs[c2]` and `xs[c]` being the same
heap object). -/
def sameBkt (n : node_ptr) (fl : bflag) (c0 c1 tg : Nat) (es : ah_entries) : Bool :=
  match n with
  | node_ptr.bkt fl2 d0 d1 tg2 es2 =>
      decide (fl2 = fl) && decide (d0 = c0) && decide (d1 = c1) &&
      decide (tg2 = tg) && decide (es2 = es)
  | _ => false

/-- Record-list invariants of a bucket: distinct keys; in a hybrid bucket
every key is nonempty with its leading byte inside `[c0, c1]` (spec 3.6,
invariant 4, maintained by the code). -/
def entriesOK (fl : bflag) (c0 c1 : Nat) (es : ah_entries) : Bool :=
  decide ((es.map Prod.fst).Nodup) &&
  (match fl with
   | bflag.pure => true
   | bflag.hybrid => es.all (fun e =>
       decide (¬ e.1 = []) && decide (c0 ≤ (e.1.headD 0).val) &&
       decide ((e.1.headD 0).val ≤ c1)))

/-- Invariants of one child slot of a trie node (spec 3.6, invariants 2-4):
a bucket child covers a range containing the slot, within the alphabet;
pure means a one-byte range and hybrid a wider one; its records are sound;
and every slot of the covered range holds the same bucket. -/
def slotOK (xs : Nat → node_ptr) (c : Nat) : Bool :=
  match xs c with
  | node_ptr.trie _ _ _ _ => true
  | node_ptr.bkt fl c0 c1 tg es =>
      decide (c0 ≤ c) && decide (c ≤ c1) && decide (c1 ≤ 255) &&
      (match fl with
       | bflag.pure => decide (c0 = c1)
       | bflag.hybrid => decide (c0 < c1)) &&
      entriesOK fl c0 c1 es &&
      (List.range' c0 (c1 + 1 - c0)).all (fun c2 => sameBkt (xs c2) fl c0 c1 tg es)

/-- Structural well-formedness of a subtree (spec 3.6): every slot of every
reachable trie node satisfies `slotOK`, and adjacent slots carrying the same
allocation tag hold the same object (distinct heap objects have distinct
addresses, so equal adjacent pointers mean one shared object). -/
inductive WfN : node_ptr → Prop where
  | bkt (fl : bflag) (c0 c1 tg : Nat) (es : ah_entries) :
      WfN (node_ptr.bkt fl c0 c1 tg es)
  | trie (hv : Bool) (v : value_t) (tg : Nat) (xs : Nat → node_ptr)
      (hslots : ∀ c, c < 256 → slotOK xs c = true)
      (hadj : ∀ c, c < 255 → (xs c).tag = (xs (c + 1)).tag →
        xs c = xs (c + 1) ∧ (xs c).isTrie = false)
      (hch : ∀ c, c < 256 → WfN (xs c)) :
      WfN (node_ptr.trie hv v tg xs)

/-- The allocation tag `t` belongs to some object of the subtree. -/
inductive TagIn : node_ptr → Nat → Prop where
  | here (n : node_ptr) : TagIn n n.tag
  | child (hv : Bool) (v : value_t) (tg : Nat) (xs : Nat → node_ptr)
      (c t : Nat) (hc : c < 256) (h : TagIn (xs c) t) :
      TagIn (node_ptr.trie hv v tg xs) t

/-- Container well-formedness: the root is a trie node, the tree is
structurally well formed, and every allocation tag in the tree is below the
allocator counter (addresses of live objects precede the next fresh one). -/
structure WF (T : hattrie_t) : Prop where
  rootTrie : T.root.isTrie = true
  wfn : WfN T.root
  tagsBelow : ∀ t, TagIn T.root t → t < T.next

theorem WfN_nodeAt : ∀ (p : List byte_t) (n n2 : node_ptr),
    WfN n → nodeAt n p = some n2 → WfN n2 := by
  intro p
  induction p with
  | nil =>
    intro n n2 hw h
    simp [nodeAt] at h
    exact h ▸ hw
  | cons c rest ih =>
    intro n n2 hw h
    cases n with
    | bkt fl c0 c1 tg es => simp [nodeAt] at h
    | trie hv v tg xs =>
      cases hw with
      | trie _ _ _ _ hslots hadj hch =>
        exact ih (xs c.val) n2 (hch c.val c.isLt) (by simpa [nodeAt] using h)

theorem TagIn_nodeAt : ∀ (p : List byte_t) (n n2 : node_ptr),
    nodeAt n p = some n2 → TagIn n n2.tag := by
  intro p
  induction p with
  | nil =>
    intro n n2 h
    simp [nodeAt] at h
    exact h ▸ TagIn.here n
  | cons c rest ih =>
    intro n n2 h
    cases n with
    | bkt fl c0 c1 tg es => simp [nodeAt] at h
    | trie hv v tg xs =>
      exact TagIn.child hv v tg xs c.val n2.tag c.isLt
        (ih (xs c.val) n2 (by simpa [nodeAt] using h))

theorem sameBkt_eq (n : node_ptr) (fl : bflag) (c0 c1 tg : Nat)
    (es : ah_entries) (h : sameBkt n fl c0 c1 tg es = true) :
    n = node_ptr.bkt fl c0 c1 tg es := by
  cases n with
  | trie hv v tg2 xs => simp [sameBkt] at h
  | bkt fl2 d0 d1 tg2 es2 =>
    simp only [sameBkt, Bool.and_eq_true, decide_eq_true_eq] at h
    obtain ⟨⟨⟨⟨h1, h2⟩, h3⟩, h4⟩, h5⟩ := h
    rw [h1, h2, h3, h4, h5]

theorem slotOK_bkt (xs : Nat → node_ptr) (c : Nat) (fl : bflag) (c0 c1 tg : Nat)
    (es : ah_entries) (hc : xs c = node_ptr.bkt fl c0 c1 tg es)
    (hok : slotOK xs c = true) :
    c0 ≤ c ∧ c ≤ c1 ∧ c1 ≤ 255 ∧
    (fl = bflag.pure → c0 = c1) ∧ (fl = bflag.hybrid → c0 < c1) ∧
    (es.map Prod.fst).Nodup ∧
    (fl = bflag.hybrid → ∀ e ∈ es, e.1 ≠ [] ∧ c0 ≤ (e.1.headD 0).val ∧
      (e.1.headD 0).val ≤ c1) ∧
    (∀ c2, c0 ≤ c2 → c2 ≤ c1 → xs c2 = node_ptr.bkt fl c0 c1 tg es) := by
  rw [slotOK, hc] at hok
  simp only [Bool.and_eq_true, decide_eq_true_eq] at hok
  obtain ⟨⟨⟨⟨⟨q1, q2⟩, q3⟩, q4⟩, q5⟩, q6⟩ := hok
  have hflpure : fl = bflag.pure → c0 = c1 := by
    intro hfl
    subst hfl
    exact of_decide_eq_true q4
  have hflhyb : fl = bflag.hybrid → c0 < c1 := by
    intro hfl
    subst hfl
    exact of_decide_eq_true q4
  have hnodup : (es.map Prod.fst).Nodup := by
    have := (Bool.and_eq_true _ _).mp q5
    exact of_decide_eq_true this.1
  have hhyb : fl = bflag.hybrid → ∀ e ∈ es, e.1 ≠ [] ∧
      c0 ≤ (e.1.headD 0).val ∧ (e.1.headD 0).val ≤ c1 := by
    intro hfl e he
    subst hfl
    have := (Bool.and_eq_true _ _).mp q5
    have h2 := List.all_eq_true.mp this.2 e he
    simp only [Bool.and_eq_true, decide_eq_true_eq] at h2
    exact ⟨h2.1.1, h2.1.2, h2.2⟩
  have hrange : ∀ c2, c0 ≤ c2 → c2 ≤ c1 →
      xs c2 = node_ptr.bkt fl c0 c1 tg es := by
    intro c2 hl hr
    have hm : c2 ∈ List.range' c0 (c1 + 1 - c0) := by
      rw [List.mem_range'_1]
      omega
    exact sameBkt_eq _ _ _ _ _ _ (List.all_eq_true.mp q6 c2 hm)
  exact ⟨q1, q2, q3, hflpure, hflhyb, hnodup, hhyb, hrange⟩

theorem hattrie_split_isTrie (nx : Nat) (hv : Bool) (v : value_t) (tg : Nat)
    (xs : Nat → node_ptr) (node : node_ptr) :
    (hattrie_split nx (node_ptr.trie hv v tg xs) node).1.isTrie = true := by
  cases node with
  | trie hv2 v2 tg2 xs2 => rfl
  | bkt fl c0 c1 btg es => cases fl <;> rfl

/-- One `hattrie_split(T, parent, node)` call on the container, the parent
being the trie node at `ppath` and the node the bucket in its slot `c`
(no-op on a malformed location).  `T->m` is never touched by the C
function; `next` advances by the allocations it performs. -/
def hattrie_split_at (T : hattrie_t) (ppath : List byte_t) (c : byte_t) :
    hattrie_t :=
  match nodeAt T.root ppath with
  | some parent =>
    (match parent.child c.val with
     | node_ptr.bkt fl c0 c1 tg es =>
        let pr := hattrie_split T.next parent (node_ptr.bkt fl c0 c1 tg es)
        { T with root := updateAt T.root ppath (fun _ => pr.1), next := pr.2 }
     | _ => T)
  | none => T

/-- C2: on a well-formed (reachable) container, a single `hattrie_split`
operation — pure-bucket promotion or hybrid-bucket split — leaves the key
count `T->m` unchanged and leaves the whole key-to-value mapping stored in
the container unchanged. -/
theorem hattrie_split_preserves (T : hattrie_t) (ppath : List byte_t)
    (c : byte_t) (fl : bflag) (c0 c1 btg : Nat) (es : ah_entries)
    (hwf : WF T)
    (hb : nodeAt T.root (ppath ++ [c]) = some (node_ptr.bkt fl c0 c1 btg es)) :
    (hattrie_split_at T ppath c).m = T.m ∧
    ∀ q, lookupNode (hattrie_split_at T ppath c).root q =
      lookupNode T.root q := by
  have hb2 := hb
  rw [nodeAt_append] at hb2
  cases hp : nodeAt T.root ppath with
  | none => rw [hp] at hb2; simp at hb2
  | some parent =>
    rw [hp] at hb2
    simp only [Option.some_bind] at hb2
    cases parent with
    | bkt ff f0 f1 ftg fes => simp [nodeAt] at hb2
    | trie hv v tg xs =>
      have hxs : xs c.val = node_ptr.bkt fl c0 c1 btg es := by
        simpa [nodeAt] using hb2
      have hwfp : WfN (node_ptr.trie hv v tg xs) :=
        WfN_nodeAt ppath T.root _ hwf.wfn hp
      have hok : slotOK xs c.val = true := by
        cases hwfp with
        | trie _ _ _ _ hslots hadj hch => exact hslots c.val c.isLt
      obtain ⟨s1, s2, s3, s4, s5, s6, s7, s8⟩ :=
        slotOK_bkt xs c.val fl c0 c1 btg es hxs hok
      have htag : btg < T.next := by
        have h3 := TagIn_nodeAt (ppath ++ [c]) T.root _ hb
        exact hwf.tagsBelow _ h3
      have hrun : hattrie_split_at T ppath c =
          { T with
            root := updateAt T.root ppath
              (fun _ => (hattrie_split T.next (node_ptr.trie hv v tg xs)
                (node_ptr.bkt fl c0 c1 btg es)).1),
            next := (hattrie_split T.next (node_ptr.trie hv v tg xs)
                (node_ptr.bkt fl c0 c1 btg es)).2 } := by
        unfold hattrie_split_at
        rw [hp]
        simp only [node_ptr.child]
        rw [hxs]
      refine ⟨by rw [hrun], ?_⟩
      intro q
      rw [hrun]
      apply lookup_updateAt (node_ptr.trie hv v tg xs)
        ((hattrie_split T.next (node_ptr.trie hv v tg xs)
          (node_ptr.bkt fl c0 c1 btg es)).1) rfl
        (hattrie_split_isTrie T.next hv v tg xs _) ?_ ppath T.root hp q
      cases fl with
      | pure =>
        have hcc : c.val = c0 := by
          have := s4 rfl
          omega
        exact promotion_lookup T.next hv v tg xs c0 c1 btg es (hcc ▸ hxs)
      | hybrid =>
        exact split_h_lookup T.next hv v tg xs c0 c1 btg es s8 (s7 rfl)
          (s5 rfl) (by omega) (by omega)

set_option maxRecDepth 4096 in
/-- Witness for C2 at the freshly created container: splitting the initial
hybrid bucket under the root preserves `m` and the mapping. -/
theorem hattrie_split_preserves_witness :
    (hattrie_split_at hattrie_create [] 0).m = hattrie_create.m ∧
    ∀ q, lookupNode (hattrie_split_at hattrie_create [] 0).root q =
      lookupNode hattrie_create.root q :=
  hattrie_split_preserves hattrie_create [] 0 bflag.hybrid 0 255 0 []
    ⟨rfl,
     WfN.trie false 0 1 _ (by decide) (fun c hc _ => ⟨rfl, rfl⟩)
       (fun c hc => WfN.bkt _ _ _ _ _),
     fun t h => by
       cases h with
       | here => exact Nat.lt_succ_self 1
       | child hv2 v2 tg2 xs2 c2 t2 hc2 h2 =>
         cases h2 with
         | here => exact Nat.succ_pos 1⟩
    rfl

theorem nodeAt_nil (n : node_ptr) : nodeAt n [] = some n := by
  cases n <;> rfl

theorem updateAt_nil (n : node_ptr) (f : node_ptr → node_ptr) :
    updateAt n [] f = f n := by
  cases n <;> rfl

theorem nodeAt_updateAt_self (f : node_ptr → node_ptr) :
    ∀ (p : List byte_t) (root n : node_ptr),
      nodeAt root p = some n → nodeAt (updateAt root p f) p = some (f n) := by
  intro p
  induction p with
  | nil =>
    intro root n h
    rw [nodeAt_nil] at h
    cases h
    rw [updateAt_nil, nodeAt_nil]
  | cons c rest ih =>
    intro root n h
    cases root with
    | bkt fl c0 c1 tg es => simp [nodeAt] at h
    | trie hv v tg xs =>
      have h2 : nodeAt (xs c.val) rest = some n := by simpa [nodeAt] using h
      have h3 := ih (xs c.val) n h2
      simp [nodeAt, updateAt, h3]

theorem nodeAt_updateAt_other (f : node_ptr → node_ptr) :
    ∀ (p q : List byte_t) (root : node_ptr),
      (¬ ∃ r, q ++ r = p) → (¬ ∃ r, p ++ r = q) →
      nodeAt (updateAt root p f) q = nodeAt root q := by
  intro p
  induction p with
  | nil => intro q root _ h2; exact absurd ⟨q, by simp⟩ h2
  | cons c rest ih =>
    intro q root h1 h2
    cases root with
    | bkt fl c0 c1 tg es => simp [updateAt]
    | trie hv v tg xs =>
      cases q with
      | nil => exact absurd ⟨c :: rest, by simp⟩ h1
      | cons d q2 =>
        by_cases hdc : d = c
        · have hrec := ih q2 (xs c.val)
            (fun ⟨r, hr⟩ => h1 ⟨r, by rw [← hr, hdc]; rfl⟩)
            (fun ⟨r, hr⟩ => h2 ⟨r, by rw [← hr, hdc]; rfl⟩)
          simp [nodeAt, updateAt, hdc, hrec]
        · have hne : d.val ≠ c.val := fun hh => hdc (Fin.ext hh)
          simp [nodeAt, updateAt, hne]

theorem nodeAt_updateAt_pre (f : node_ptr → node_ptr) :
    ∀ (pre post : List byte_t) (root n : node_ptr),
      nodeAt root (pre ++ post) = some n →
      ∃ m, nodeAt root pre = some m ∧
        nodeAt (updateAt root (pre ++ post) f) pre = some (updateAt m post f) := by
  intro pre
  induction pre with
  | nil =>
    intro post root n h
    exact ⟨root, nodeAt_nil root, nodeAt_nil _⟩
  | cons c rest ih =>
    intro post root n h
    cases root with
    | bkt fl c0 c1 tg es => simp [nodeAt] at h
    | trie hv v tg xs =>
      have h2 : nodeAt (xs c.val) (rest ++ post) = some n := by
        simpa [nodeAt] using h
      obtain ⟨m, hm1, hm2⟩ := ih post (xs c.val) n h2
      refine ⟨m, by simpa [nodeAt] using hm1, ?_⟩
      simpa [nodeAt, updateAt] using hm2

theorem updateAt_isTrie (f : node_ptr → node_ptr) (m : node_ptr)
    (c : byte_t) (post : List byte_t) (hm : m.isTrie = true) :
    (updateAt m (c :: post) f).isTrie = true := by
  cases m with
  | trie hv v tg xs => rfl
  | bkt fl c0 c1 tg es => simp [node_ptr.isTrie] at hm

theorem TagIn_trans : ∀ (p : List byte_t) (root n : node_ptr) (t : Nat),
    nodeAt root p = some n → TagIn n t → TagIn root t := by
  intro p
  induction p with
  | nil =>
    intro root n t h ht
    rw [nodeAt_nil] at h
    cases h
    exact ht
  | cons c rest ih =>
    intro root n t h ht
    cases root with
    | bkt fl c0 c1 tg es => simp [nodeAt] at h
    | trie hv v tg xs =>
      exact TagIn.child hv v tg xs c.val t c.isLt
        (ih (xs c.val) n t (by simpa [nodeAt] using h) ht)

theorem TagIn_updateAt (f : node_ptr → node_ptr) :
    ∀ (p : List byte_t) (root : node_ptr) (t : Nat),
      TagIn (updateAt root p f) t →
      TagIn root t ∨ ∃ n, nodeAt root p = some n ∧ TagIn (f n) t := by
  intro p
  induction p with
  | nil =>
    intro root t h
    rw [updateAt_nil] at h
    exact Or.inr ⟨root, nodeAt_nil root, h⟩
  | cons c rest ih =>
    intro root t h
    cases root with
    | bkt fl c0 c1 tg es => exact Or.inl h
    | trie hv v tg xs =>
      cases h with
      | here => exact Or.inl (TagIn.here _)
      | child _ _ _ _ c2 _ hc2 h2 =>
        by_cases hcc : c2 = c.val
        · subst hcc
          have h2b : TagIn (updateAt (xs c.val) rest f) t := by simpa using h2
          rcases ih (xs c.val) t h2b with h3 | ⟨n, hn1, hn2⟩
          · exact Or.inl (TagIn.child hv v tg xs c.val t hc2 h3)
          · exact Or.inr ⟨n, by simpa [nodeAt] using hn1, hn2⟩
        · have h2b : TagIn (xs c2) t := by simpa [hcc] using h2
          exact Or.inl (TagIn.child hv v tg xs c2 t hc2 h2b)

/-- Byte stream reading a concrete key list; past the end it reads 0
(one concrete choice for the bytes that happen to lie past the buffer). -/
def keyBytes (key : List byte_t) : Nat → byte_t := fun i => key.getD i 0

/-- A stream whose every byte is 97 (`'a'`): in particular the byte at
index `len`, which `hattrie_consume` with `brk = 0` reads when the trie
chain covers the whole key, is 97. -/
def oobK : Nat → byte_t := fun _ => 97

/-- One `hattrie_insert` step on an optional container state, with the
`#ifndef`-guarded tunable `TRIE_BUCKET_SIZE` set to 2 (a legal build
configuration, common.h lines 23-25) and split fuel 8. -/
def insStep (key : List byte_t) (v : value_t) (oT : Option hattrie_t) :
    Option hattrie_t :=
  oT.bind (fun T => hattrie_insert 2 T (keyBytes key) key.length v 8)

/-- Reachable state after six inserts from `hattrie_create` at
`TRIE_BUCKET_SIZE = 2`: the splits leave a pure bucket at path
`[97, 97]` holding a zero-length record (the record of key "aa"). -/
def cexTrace6 : Option hattrie_t :=
  insStep [97, 97, 98] 60 (insStep [97, 95] 50 (insStep [97, 96] 40
    (insStep [97, 99] 30 (insStep [97, 98] 20 (insStep [97, 97] 10
      (some hattrie_create))))))

/-- One more insert: the pure bucket at `[97, 97]` fills and is promoted,
leaving a trie node under a trie node (path `[97, 97]`), with
`NODE_HAS_VAL` set from the moved zero-length record. -/
def cexTrace7 : Option hattrie_t := insStep [97, 97, 99] 70 cexTrace6

/-- Does the node at `path` hold a bucket with a zero-length record? -/
def hasEmptyRecord (T : hattrie_t) (path : List byte_t) : Bool :=
  match nodeAt T.root path with
  | some (node_ptr.bkt _ _ _ _ es) => es.any (fun e => e.1.isEmpty)
  | _ => false

/-- One `hattrie_insert` of a concrete key at `TRIE_BUCKET_SIZE = 1`
(the `#ifndef`-guarded tunable of common.h, a legal build configuration),
with split fuel 8. -/
def ins1 (key : List byte_t) (v : value_t) (oT : Option hattrie_t) :
    Option hattrie_t :=
  oT.bind (fun T => hattrie_insert 1 T (keyBytes key) key.length v 8)

/- Intermediate container states of the three-insert trace
"aa" := 10; "ab" := 20; "aa" := 99 from `hattrie_create` at
`TRIE_BUCKET_SIZE = 1`, then the faulty insert of "a" through `oobK`.
Each `xs`/`ys`/`zs` layer is one in-place bucket or node write. -/

def xs0 : Nat → node_ptr := fun _ => node_ptr.bkt bflag.hybrid 0 255 0 []
def xs1 : Nat → node_ptr := fun c2 =>
  if 0 ≤ c2 ∧ c2 ≤ 255 then node_ptr.bkt bflag.hybrid 0 255 0 [([97, 97], 0)]
  else xs0 c2
def xs1w : Nat → node_ptr := fun c2 =>
  if 0 ≤ c2 ∧ c2 ≤ 255 then node_ptr.bkt bflag.hybrid 0 255 0 [([97, 97], 10)]
  else xs1 c2

/-- State after inserting "aa" := 10. -/
def S1 : hattrie_t := { root := node_ptr.trie false 0 1 xs1w, m := 1, next := 2 }

def aL1 : node_ptr := node_ptr.bkt bflag.hybrid 0 96 2 []
def aR1 : node_ptr := node_ptr.bkt bflag.hybrid 97 255 0 [([97, 97], 10)]
def ys2 : Nat → node_ptr := fun c =>
  if 0 ≤ c ∧ c ≤ 96 then aL1 else if 97 ≤ c ∧ c ≤ 255 then aR1 else xs1w c
def aL2 : node_ptr := node_ptr.bkt bflag.pure 97 97 3 [([97], 10)]
def aR2 : node_ptr := node_ptr.bkt bflag.hybrid 98 255 0 []
def ys3 : Nat → node_ptr := fun c =>
  if 97 ≤ c ∧ c ≤ 97 then aL2 else if 98 ≤ c ∧ c ≤ 255 then aR2 else ys2 c
def nB : node_ptr := node_ptr.bkt bflag.hybrid 0 255 3 [([97], 10)]
def tN : node_ptr := node_ptr.trie false 0 4 (fun _ => nB)
def ys4 : Nat → node_ptr := fun c2 => if c2 = 97 then tN else ys3 c2
def bL1 : node_ptr := node_ptr.bkt bflag.hybrid 0 96 5 []
def bR1 : node_ptr := node_ptr.bkt bflag.hybrid 97 255 3 [([97], 10)]
def zs1 : Nat → node_ptr := fun c =>
  if 0 ≤ c ∧ c ≤ 96 then bL1 else if 97 ≤ c ∧ c ≤ 255 then bR1 else nB
def A1 : node_ptr := node_ptr.trie false 0 4 zs1
def ys5 : Nat → node_ptr := fun c2 => if c2 = 97 then A1 else ys4 c2
def cL : node_ptr := node_ptr.bkt bflag.pure 97 97 6 [([], 10)]
def cR : node_ptr := node_ptr.bkt bflag.hybrid 98 255 3 []
def zs2 : Nat → node_ptr := fun c =>
  if 97 ≤ c ∧ c ≤ 97 then cL else if 98 ≤ c ∧ c ≤ 255 then cR else zs1 c
def A2 : node_ptr := node_ptr.trie false 0 4 zs2
def ys6 : Nat → node_ptr := fun c2 => if c2 = 97 then A2 else ys5 c2
def cRi : node_ptr := node_ptr.bkt bflag.hybrid 98 255 3 [([98], 0)]
def zs3 : Nat → node_ptr := fun c2 =>
  if 98 ≤ c2 ∧ c2 ≤ 255 then cRi else zs2 c2
def A3 : node_ptr := node_ptr.trie false 0 4 zs3
def ys7 : Nat → node_ptr := fun c2 => if c2 = 97 then A3 else ys6 c2
def T7 : hattrie_t := { root := node_ptr.trie false 0 1 ys7, m := 2, next := 7 }

def cRw : node_ptr := node_ptr.bkt bflag.hybrid 98 255 3 [([98], 20)]
def zs4 : Nat → node_ptr := fun c2 =>
  if 98 ≤ c2 ∧ c2 ≤ 255 then cRw else zs3 c2
def A4 : node_ptr := node_ptr.trie false 0 4 zs4
def ys8 : Nat → node_ptr := fun c2 => if c2 = 97 then A4 else ys7 c2

/-- State after then inserting "ab" := 20: six `hattrie_get` loop
iterations (two hybrid splits, a promotion, two more splits, the
insert).  Note the pure bucket `cL` at path `[97, 97]` now holds the
zero-length record `([], 10)` (the record of key "aa"). -/
def S2 : hattrie_t := { root := node_ptr.trie false 0 1 ys8, m := 2, next := 7 }

def dB : node_ptr := node_ptr.bkt bflag.hybrid 0 255 6 []
def dT : node_ptr := node_ptr.trie true 10 7 (fun _ => dB)
def zs5 : Nat → node_ptr := fun c2 => if c2 = 97 then dT else zs4 c2
def A5 : node_ptr := node_ptr.trie false 0 4 zs5
def ys9 : Nat → node_ptr := fun c2 => if c2 = 97 then A5 else ys8 c2
def zs6 : Nat → node_ptr := fun c3 => if c3 = 97 then dT else zs5 c3
def A6 : node_ptr := node_ptr.trie false 0 4 zs6
def ys10 : Nat → node_ptr := fun c2 => if c2 = 97 then A6 else ys9 c2
def T10 : hattrie_t := { root := node_ptr.trie false 0 1 ys10, m := 2, next := 8 }
def dT99 : node_ptr := node_ptr.trie true 99 7 (fun _ => dB)
def zs7 : Nat → node_ptr := fun c3 => if c3 = 97 then dT99 else zs6 c3
def A7 : node_ptr := node_ptr.trie false 0 4 zs7
def ys11 : Nat → node_ptr := fun c2 => if c2 = 97 then A7 else ys10 c2

/-- State after then inserting "aa" := 99: the full pure bucket `cL` is
promoted to the trie node `dT` (which receives the moved zero-length
record: `NODE_HAS_VAL`, val 10), and the re-descent consumes the whole
key on trie nodes, reading the out-of-bounds byte `key[2] = 0` and
using the parent `dT`'s value slot. -/
def S3 : hattrie_t := { root := node_ptr.trie false 0 1 ys11, m := 2, next := 8 }

def zs8 : Nat → node_ptr := fun c3 => if c3 = 97 then dT99 else zs7 c3
def A8 : node_ptr := node_ptr.trie false 0 4 zs8
def ys12 : Nat → node_ptr := fun c2 => if c2 = 97 then A8 else ys11 c2
def T12 : hattrie_t := { root := node_ptr.trie false 0 1 ys12, m := 2, next := 8 }
def dT77 : node_ptr := node_ptr.trie true 77 7 (fun _ => dB)
def zs9 : Nat → node_ptr := fun c3 => if c3 = 97 then dT77 else zs8 c3
def A9 : node_ptr := node_ptr.trie false 0 4 zs9
def ys13 : Nat → node_ptr := fun c2 => if c2 = 97 then A9 else ys12 c2

/-- State after inserting "a" := 77 through the all-97 stream `oobK`:
the descent covers the one-byte key on trie nodes, reads the
out-of-bounds byte `key[1] = 97`, and `hattrie_useval` marks the WRONG
node `dT99` (which stands for key "aa"), clobbering its value with 77;
the trie node `A9` standing for "a" keeps `NODE_HAS_VAL` clear. -/
def S4 : hattrie_t := { root := node_ptr.trie false 0 1 ys13, m := 2, next := 8 }

set_option maxRecDepth 8000 in
theorem trace_step1a : hattrie_get 1 hattrie_create (keyBytes [97, 97]) 2 8 =
    some ({ root := node_ptr.trie false 0 1 xs1, m := 1, next := 2 },
          href.bucketVal [97] [97, 97]) := rfl

set_option maxRecDepth 8000 in
theorem trace_step1b :
    writeRef { root := node_ptr.trie false 0 1 xs1, m := 1, next := 2 }
      (href.bucketVal [97] [97, 97]) 10 = S1 := rfl

theorem trace_step1 :
    hattrie_insert 1 hattrie_create (keyBytes [97, 97]) 2 10 8 = some S1 := by
  show (hattrie_get 1 hattrie_create (keyBytes [97, 97]) 2 8).map _ = _
  rw [trace_step1a]
  show some (writeRef _ _ 10) = _
  rw [trace_step1b]

set_option maxRecDepth 8000 in
theorem trace_step2a : hattrie_get 1 S1 (keyBytes [97, 98]) 2 8 =
    some (T7, href.bucketVal [97, 98] [98]) := rfl

set_option maxRecDepth 8000 in
theorem trace_step2b : writeRef T7 (href.bucketVal [97, 98] [98]) 20 = S2 := rfl

theorem trace_step2 :
    hattrie_insert 1 S1 (keyBytes [97, 98]) 2 20 8 = some S2 := by
  show (hattrie_get 1 S1 (keyBytes [97, 98]) 2 8).map _ = _
  rw [trace_step2a]
  show some (writeRef _ _ 20) = _
  rw [trace_step2b]

set_option maxRecDepth 8000 in
theorem trace_step3a : hattrie_get 1 S2 (keyBytes [97, 97]) 2 8 =
    some (T10, href.trieVal [97, 97]) := rfl

set_option maxRecDepth 8000 in
theorem trace_step3b : writeRef T10 (href.trieVal [97, 97]) 99 = S3 := rfl

theorem trace_step3 :
    hattrie_insert 1 S2 (keyBytes [97, 97]) 2 99 8 = some S3 := by
  show (hattrie_get 1 S2 (keyBytes [97, 97]) 2 8).map _ = _
  rw [trace_step3a]
  show some (writeRef _ _ 99) = _
  rw [trace_step3b]

set_option maxRecDepth 8000 in
theorem trace_step4a : hattrie_get 1 S3 oobK 1 8 =
    some (T12, href.trieVal [97, 97]) := rfl

set_option maxRecDepth 8000 in
theorem trace_step4b : writeRef T12 (href.trieVal [97, 97]) 77 = S4 := rfl

theorem trace_step4 : hattrie_insert 1 S3 oobK 1 77 8 = some S4 := by
  show (hattrie_get 1 S3 oobK 1 8).map _ = _
  rw [trace_step4a]
  show some (writeRef _ _ 77) = _
  rw [trace_step4b]

/-- The four-insert trace, ending with the insert of "a" := 77 whose
final descent reads the out-of-bounds byte 97. -/
def c1trace : Option hattrie_t :=
  (ins1 [97, 97] 99 (ins1 [97, 98] 20 (ins1 [97, 97] 10
    (some hattrie_create)))).bind
      (fun T => hattrie_insert 1 T oobK 1 77 8)

theorem c1trace_eq : c1trace = some S4 := by
  simp only [c1trace, ins1, Option.some_bind]
  norm_num [trace_step1, trace_step2, trace_step3, trace_step4,
    Option.some_bind]

theorem c6trace_eq :
    ins1 [97, 98] 20 (ins1 [97, 97] 10 (some hattrie_create)) = some S2 := by
  simp only [ins1, Option.some_bind]
  norm_num [trace_step1, trace_step2, Option.some_bind]

/-- The container that holds exactly one bucket record `(key, v)` for the
`len`-byte key read from stream `k`: a root trie whose single hybrid
bucket (written through every reachable slot) has that one record. -/
def createIns (k : Nat → byte_t) (len : Nat) (v : value_t) : hattrie_t :=
  { root := node_ptr.trie false 0 1 (fun c2 =>
      if 0 ≤ c2 ∧ c2 ≤ 255 then
        node_ptr.bkt bflag.hybrid 0 255 0 [((List.range len).map k, v)]
      else node_ptr.bkt bflag.hybrid 0 255 0 []),
    m := 1, next := 2 }

theorem get_create_aux (cfg : Nat) (k : Nat → byte_t) (l : Nat) (fuel : Nat)
    (hcfg : 1 ≤ cfg) :
    hattrie_get cfg hattrie_create k (l + 1) fuel =
      some (createIns k (l + 1) 0,
            href.bucketVal [k 0] ((List.range (l + 1)).map k)) := by
  have hcons : hattrie_consume hattrie_create.root (fun i => k (i + 0)) (l + 1) 0 =
      ⟨hattrie_create.root, 0, l + 1, node_ptr.bkt bflag.hybrid 0 255 0 []⟩ := by
    simp only [hattrie_consume, consume_go, hattrie_create, node_ptr.child,
      node_ptr.isTrie]
    rw [if_neg]
    simp
  have h0 : ¬ (cfg ≤ 0) := by omega
  simp only [hattrie_get]
  rw [if_neg (by omega : ¬ (l + 1 = 0))]
  rw [get_loop.eq_def]
  simp only [hcons]
  simp [updateBucketAt, hattrie_create, createIns, ahtable_get_entries,
    ahtable_tryget, ahtable_size, node_ptr.entries, h0]
  rfl

theorem write_create_aux (k : Nat → byte_t) (l : Nat) (v : value_t) :
    writeRef (createIns k (l + 1) 0)
      (href.bucketVal [k 0] ((List.range (l + 1)).map k)) v =
    createIns k (l + 1) v := by
  have hlt : 0 ≤ (k 0).val ∧ (k 0).val ≤ 255 := ⟨Nat.zero_le _, by
    have := (k 0).isLt; omega⟩
  simp only [writeRef, createIns, updateBucketAt]
  rw [if_pos hlt]
  simp
  funext c2
  by_cases h : c2 ≤ 255 <;> simp [h]

theorem tryget_create_aux (k : Nat → byte_t) (l : Nat) (v : value_t) :
    hattrie_tryget (createIns k (l + 1) v) k (l + 1) =
      some (href.bucketVal [k 0] ((List.range (l + 1)).map k)) := by
  have hlt : 0 ≤ (k 0).val ∧ (k 0).val ≤ 255 := ⟨Nat.zero_le _, by
    have := (k 0).isLt; omega⟩
  have hcons : hattrie_consume (createIns k (l + 1) v).root k (l + 1) 1 =
      ⟨(createIns k (l + 1) v).root, 0, l + 1,
       node_ptr.bkt bflag.hybrid 0 255 0 [((List.range (l + 1)).map k, v)]⟩ := by
    simp only [hattrie_consume, consume_go, createIns, node_ptr.child]
    rw [if_pos hlt]
    rw [if_neg]
    simp [node_ptr.isTrie]
  simp only [hattrie_tryget, hattrie_find]
  rw [if_neg (by omega : ¬ (l + 1 = 0))]
  simp only [hcons]
  simp [ahtable_tryget]
  rfl

theorem readref_create_aux (k : Nat → byte_t) (l : Nat) (v : value_t) :
    readRef (createIns k (l + 1) v)
      (href.bucketVal [k 0] ((List.range (l + 1)).map k)) = some v := by
  have hlt : 0 ≤ (k 0).val ∧ (k 0).val ≤ 255 := ⟨Nat.zero_le _, by
    have := (k 0).isLt; omega⟩
  simp only [readRef, createIns, nodeAt]
  rw [if_pos hlt]
  simp [nodeAt, ahtable_tryget]

/-- C1 (counterexample): from the reachable state `S4`'s trace — four
`hattrie_insert` operations from `hattrie_create` at
`TRIE_BUCKET_SIZE = 1` — the final insert of the one-byte key "a"
succeeds (`hattrie_get` returns a pointer and the store happens), yet
the immediately following `hattrie_tryget` of the same key returns
null: the `brk = 0` descent of `hattrie_get` consumed the whole key on
trie nodes and dispatched on the out-of-bounds byte `key[1]`, marking
the trie node of key "aa" instead of the node of "a". -/
theorem hattrie_insert_tryget_cex :
    c1trace.isSome = true ∧
    c1trace.bind (fun T2 => hattrie_tryget T2 oobK 1) = none := by
  rw [c1trace_eq]
  exact ⟨rfl, rfl⟩

/-- C1 (amended): on a freshly created container the claimed round trip
does hold for every nonempty key: `hattrie_get` inserts the record into
the root's hybrid bucket, the store writes its value, and
`hattrie_tryget` returns a pointer whose target is that value. -/
theorem hattrie_insert_tryget_amended (cfg : Nat) (k : Nat → byte_t) (l : Nat)
    (v : value_t) (fuel : Nat) (hcfg : 1 ≤ cfg) :
    ∃ T2 r, hattrie_insert cfg hattrie_create k (l + 1) v fuel = some T2 ∧
      hattrie_tryget T2 k (l + 1) = some r ∧ readRef T2 r = some v := by
  refine ⟨createIns k (l + 1) v,
    href.bucketVal [k 0] ((List.range (l + 1)).map k),
    ?_, tryget_create_aux k l v, readref_create_aux k l v⟩
  show (hattrie_get cfg hattrie_create k (l + 1) fuel).map _ = _
  rw [get_create_aux cfg k l fuel hcfg]
  show some (writeRef (createIns k (l + 1) 0) _ v) = _
  rw [write_create_aux]

/-- Witness for the amended C1 theorem at `cfg = 1`, the constant-0
one-byte key, value 5. -/
theorem hattrie_insert_tryget_amended_witness :
    ∃ T2 r, hattrie_insert 1 hattrie_create (fun _ => 0) (0 + 1) 5 0 = some T2 ∧
      hattrie_tryget T2 (fun _ => 0) (0 + 1) = some r ∧ readRef T2 r = some 5 :=
  hattrie_insert_tryget_amended 1 (fun _ => 0) 0 5 0 (by decide)

/-- C6 (counterexample): after two inserts ("aa" := 10 then "ab" := 20)
from `hattrie_create` at `TRIE_BUCKET_SIZE = 1`, the pure bucket at
path `[97, 97]` holds a zero-length record: the record of key "aa",
whose leading byte was stripped when it was moved into the pure side of
a hybrid split. -/
theorem hattrie_empty_record_cex :
    (ins1 [97, 98] 20 (ins1 [97, 97] 10 (some hattrie_create))).map
      (fun T => hasEmptyRecord T [97, 97]) = some true := by
  rw [c6trace_eq]
  rfl

/-- No hybrid bucket in the tree holds a zero-length record.  (Pure buckets
may: the counterexample above shows one, and the promotion path of
`hattrie_split` is written for exactly that case.) -/
inductive NoEmptyHyb : node_ptr → Prop
  | bkt (fl : bflag) (c0 c1 tg : Nat) (es : ah_entries)
      (h : fl = bflag.hybrid → ∀ e ∈ es, e.1 ≠ []) :
      NoEmptyHyb (node_ptr.bkt fl c0 c1 tg es)
  | trie (hv : Bool) (v : value_t) (tg : Nat) (xs : Nat → node_ptr)
      (h : ∀ c, c < 256 → NoEmptyHyb (xs c)) :
      NoEmptyHyb (node_ptr.trie hv v tg xs)

theorem NoEmptyHyb_child (hv : Bool) (v : value_t) (tg : Nat)
    (xs : Nat → node_ptr) (c : Nat) (hc : c < 256)
    (h : NoEmptyHyb (node_ptr.trie hv v tg xs)) : NoEmptyHyb (xs c) := by
  cases h with
  | trie _ _ _ _ h2 => exact h2 c hc

theorem NoEmptyHyb_nodeAt : ∀ (p : List byte_t) (root n : node_ptr),
    nodeAt root p = some n → NoEmptyHyb root → NoEmptyHyb n := by
  intro p
  induction p with
  | nil =>
    intro root n h hr
    rw [nodeAt_nil] at h
    cases h
    exact hr
  | cons c rest ih =>
    intro root n h hr
    cases root with
    | bkt fl c0 c1 tg es => simp [nodeAt] at h
    | trie hv v tg xs =>
      exact ih (xs c.val) n (by simpa [nodeAt] using h)
        (NoEmptyHyb_child hv v tg xs c.val c.isLt hr)

theorem NoEmptyHyb_updateAt (f : node_ptr → node_ptr)
    (hf : ∀ n, NoEmptyHyb n → NoEmptyHyb (f n)) :
    ∀ (p : List byte_t) (root : node_ptr),
      NoEmptyHyb root → NoEmptyHyb (updateAt root p f) := by
  intro p
  induction p with
  | nil =>
    intro root hr
    rw [updateAt_nil]
    exact hf root hr
  | cons c rest ih =>
    intro root hr
    cases root with
    | bkt fl c0 c1 tg es => exact hr
    | trie hv v tg xs =>
      refine NoEmptyHyb.trie _ _ _ _ (fun c2 hc2 => ?_)
      by_cases hcc : c2 = c.val
      · subst hcc
        simp only [if_pos rfl]
        exact ih (xs c.val) (NoEmptyHyb_child hv v tg xs c.val hc2 hr)
      · simp only [if_neg hcc]
        exact NoEmptyHyb_child hv v tg xs c2 hc2 hr

theorem NoEmptyHyb_updateBucketAt (f : node_ptr → node_ptr) :
    ∀ (p : List byte_t) (root : node_ptr),
      NoEmptyHyb root →
      (∀ fl c0 c1 tg es,
        nodeAt root p = some (node_ptr.bkt fl c0 c1 tg es) →
        NoEmptyHyb (f (node_ptr.bkt fl c0 c1 tg es))) →
      NoEmptyHyb (updateBucketAt root p f) := by
  intro p
  induction p with
  | nil => intro root hr _; cases root <;> exact hr
  | cons c rest ih =>
    intro root hr hb
    cases root with
    | bkt fl c0 c1 tg es => exact hr
    | trie hv v tg xs =>
      cases rest with
      | nil =>
        cases hxs : xs c.val with
        | trie hv2 v2 tg2 xs2 =>
          simp only [updateBucketAt, hxs]
          exact hr
        | bkt fl2 d0 d1 tg2 es2 =>
          simp only [updateBucketAt, hxs]
          refine NoEmptyHyb.trie _ _ _ _ (fun c2 hc2 => ?_)
          by_cases hin : d0 ≤ c2 ∧ c2 ≤ d1
          · rw [if_pos hin]
            exact hb fl2 d0 d1 tg2 es2 (by simp [nodeAt, hxs])
          · rw [if_neg hin]
            exact NoEmptyHyb_child hv v tg xs c2 hc2 hr
      | cons d rest2 =>
        refine NoEmptyHyb.trie _ _ _ _ (fun c2 hc2 => ?_)
        by_cases hcc : c2 = c.val
        · subst hcc
          simp only [if_pos rfl]
          exact ih (xs c.val) (NoEmptyHyb_child hv v tg xs c.val hc2 hr)
            (fun fl c0 c1 tg es h => hb fl c0 c1 tg es (by simpa [nodeAt] using h))
        · simp only [if_neg hcc]
          exact NoEmptyHyb_child hv v tg xs c2 hc2 hr

theorem fill_go_both_src (split : Nat) (lp rp : Bool) :
    ∀ es : ah_entries, fill_go split true true lp rp es = (es, [], []) := by
  intro es
  induction es with
  | nil => rfl
  | cons e rest ih =>
    obtain ⟨key, u⟩ := e
    simp only [fill_go, ih]
    by_cases hsp : split < (key.headD 0).val
    · rw [if_pos hsp]
      simp
    · rw [if_neg hsp]
      simp

theorem keeps_le_sub (split : Nat) (es : ah_entries)
    (e : List byte_t × value_t) (h : e ∈ keeps_le split es) : e ∈ es :=
  (List.mem_filter.1 h).1

theorem keeps_gt_sub (split : Nat) (es : ah_entries)
    (e : List byte_t × value_t) (h : e ∈ keeps_gt split es) : e ∈ es :=
  (List.mem_filter.1 h).1

theorem fill_go_mem1 (split : Nat) (sl sr lp rp : Bool) :
    ∀ (es : ah_entries) (e : List byte_t × value_t),
      e ∈ (fill_go split sl sr lp rp es).1 → e ∈ es := by
  intro es
  induction es with
  | nil => intro e h; simp [fill_go] at h
  | cons p rest ih =>
    obtain ⟨key, u⟩ := p
    intro e h
    simp only [fill_go] at h
    repeat' split at h
    all_goals simp only [List.mem_cons] at h ⊢
    all_goals first
      | (rcases h with h | h
         · exact Or.inl h
         · exact Or.inr (ih e h))
      | exact Or.inr (ih e h)
      | simp_all

theorem fill_go_mem2 (split : Nat) (sl sr rp : Bool) :
    ∀ (es : ah_entries) (e : List byte_t × value_t),
      e ∈ (fill_go split sl sr false rp es).2.1 → e ∈ es := by
  intro es
  induction es with
  | nil => intro e h; simp [fill_go] at h
  | cons p rest ih =>
    obtain ⟨key, u⟩ := p
    intro e h
    simp only [fill_go] at h
    repeat' split at h
    all_goals simp only [List.mem_cons] at h ⊢
    all_goals first
      | (rcases h with h | h
         · exact Or.inl h
         · exact Or.inr (ih e h))
      | exact Or.inr (ih e h)
      | simp_all

theorem fill_go_mem3 (split : Nat) (sl sr lp : Bool) :
    ∀ (es : ah_entries) (e : List byte_t × value_t),
      e ∈ (fill_go split sl sr lp false es).2.2 → e ∈ es := by
  intro es
  induction es with
  | nil => intro e h; simp [fill_go] at h
  | cons p rest ih =>
    obtain ⟨key, u⟩ := p
    intro e h
    simp only [fill_go] at h
    repeat' split at h
    all_goals simp only [List.mem_cons] at h ⊢
    all_goals first
      | (rcases h with h | h
         · exact Or.inl h
         · exact Or.inr (ih e h))
      | exact Or.inr (ih e h)
      | simp_all
